import Mathlib

/-!
Shallow embedding of the WER annotation tool (johnny-PcP/wer-tool).

Strings are modelled as `List Char` (JavaScript strings at character-sequence
granularity), numeric offsets as `Int` (JavaScript numbers under the integer
arithmetic these code paths perform), and segment/line ids as `Nat`
(the source generates ids `seg-${n}` / `line-${n}` from monotonic counters,
so the numeric counter value is a faithful key).

In-place array mutation (`splice`, indexed assignment) is modelled by pure
list operations: `List.set` for indexed assignment, `removeAt` for
`splice(i, 1)`, `insertAt` for `splice(i, 0, x)` and `++ [x]` for `push`.
-/

namespace WerTool

/-- `splice(i, 1)`: remove the element at index `i` (no-op when out of bounds). -/
def removeAt (l : List α) (i : Nat) : List α :=
  l.take i ++ l.drop (i + 1)

/-- `splice(i, 0, a)`: insert `a` at index `i`. -/
def insertAt (l : List α) (i : Nat) (a : α) : List α :=
  l.take i ++ a :: l.drop i

/-- Mutate the element at index `i` in place (no-op when out of bounds). -/
def listModify (l : List α) (i : Nat) (f : α → α) : List α :=
  match l, i with
  | [], _ => []
  | a :: as, 0 => f a :: as
  | a :: as, i + 1 => a :: listModify as i f

/-! ## Data model (`src/types/index.ts`) -/

/-- `Segment` from `src/types/index.ts`. -/
structure Segment where
  id : Nat
  text : List Char
  isError : Bool
  isDeleted : Bool
  startIndex : Int
  endIndex : Int
deriving Repr, DecidableEq

/-- `TextLine` from `src/types/index.ts`. -/
structure TextLine where
  id : Nat
  originalText : List Char
  segments : List Segment
deriving Repr, DecidableEq

/-- `Selection` from `src/types/index.ts` (`lineId`/`segmentId` are `string | null`). -/
structure Selection where
  lineId : Option Nat
  segmentId : Option Nat
deriving Repr, DecidableEq

/-- The mutable state the segment editor closes over: the line collection plus
the module-level `segmentIdCounter` of `useSegmentEditor.ts` (initially 1000;
`generateSegmentId` pre-increments it and uses the new value). -/
structure EditorState where
  lines : List TextLine
  segmentIdCounter : Nat
deriving Repr, DecidableEq

/-! ## Segment editor (`src/composables/useSegmentEditor.ts`)

Each operation returns the new state paired with a `Bool` recording whether
the injected before-action hook `onBeforeAction` was invoked during the call
(the source invokes it at most once per call).

`getSelectedSegment` returns the indices of the selected line and segment;
the TypeScript version returns live references `{ line, segmentIndex,
segment }`, which the operations read back through those indices. -/

/-- `getSelectedSegment`: resolve the current selection to (line index,
segment index), or `none` when the selection is invalid (no line with the
selected id, no segment with the selected id, missing segment). -/
def getSelectedSegment (lines : List TextLine) (sel : Selection) : Option (Nat × Nat) :=
  match lines.findIdx? (fun l => some l.id == sel.lineId) with
  | none => none
  | some li =>
    match lines[li]? with
    | none => none
    | some line =>
      match line.segments.findIdx? (fun s => some s.id == sel.segmentId) with
      | none => none
      | some si =>
        match line.segments[si]? with
        | none => none
        | some _ => some (li, si)

/-- Segment-list part of `expandLeft`: steal the last character of the
previous segment (removing it if it becomes empty). -/
def expandLeftSegs (si : Nat) (segs : List Segment) : List Segment :=
  if 0 < si then
    match segs[si - 1]?, segs[si]? with
    | some prev, some seg =>
      -- `prev.text.length > 0` guard and `slice(-1)` together:
      match prev.text.getLast? with
      | some ch =>
        let prev2 : Segment := { prev with text := prev.text.dropLast }
        let seg2 : Segment := { seg with text := ch :: seg.text, startIndex := prev.endIndex }
        let segs2 := (segs.set (si - 1) prev2).set si seg2
        if prev2.text.isEmpty then removeAt segs2 (si - 1) else segs2
      | none => segs
    | _, _ => segs
  else segs

/-- `expandLeft` (Z + ←). The hook fires as soon as the selection is valid,
before the previous-sibling precondition is examined. -/
def expandLeft (st : EditorState) (sel : Selection) : EditorState × Bool :=
  match getSelectedSegment st.lines sel with
  | none => (st, false)
  | some (li, si) =>
    let lines2 := listModify st.lines li
      (fun line => { line with segments := expandLeftSegs si line.segments })
    ({ st with lines := lines2 }, true)

/-- Segment-list part of `shrinkLeft`; also threads the id counter (a fresh
segment is created when there is no previous sibling). -/
def shrinkLeftSegs (ctr : Nat) (si : Nat) (segs : List Segment) : List Segment × Nat :=
  match segs[si]? with
  | none => (segs, ctr)
  | some seg =>
    if seg.text.length ≤ 1 then (segs, ctr)
    else
      match seg.text.head? with
      | none => (segs, ctr)
      | some ch =>
        let seg2 : Segment := { seg with text := seg.text.tail, startIndex := seg.startIndex + 1 }
        let segs2 := segs.set si seg2
        if 0 < si then
          match segs2[si - 1]? with
          | some prev =>
            (segs2.set (si - 1) { prev with text := prev.text ++ [ch], endIndex := prev.endIndex + 1 }, ctr)
          | none => (segs2, ctr)
        else
          (insertAt segs2 0
            { id := ctr + 1, text := [ch], isError := false, isDeleted := false,
              startIndex := seg2.startIndex - 1, endIndex := seg2.startIndex }, ctr + 1)

/-- `shrinkLeft` (Z + →). The hook fires as soon as the selection is valid;
the minimum-length guard is only checked afterwards. -/
def shrinkLeft (st : EditorState) (sel : Selection) : EditorState × Bool :=
  match getSelectedSegment st.lines sel with
  | none => (st, false)
  | some (li, si) =>
    match st.lines[li]? with
    | none => (st, true)
    | some line =>
      let (segs2, ctr2) := shrinkLeftSegs st.segmentIdCounter si line.segments
      ({ lines := st.lines.set li { line with segments := segs2 },
         segmentIdCounter := ctr2 }, true)

/-- Segment-list part of `shrinkRight`; also threads the id counter (a fresh
segment is created when there is no next sibling). -/
def shrinkRightSegs (ctr : Nat) (si : Nat) (segs : List Segment) : List Segment × Nat :=
  match segs[si]? with
  | none => (segs, ctr)
  | some seg =>
    match seg.text.getLast? with
    | none => (segs, ctr)
    | some ch =>
      let seg2 : Segment := { seg with text := seg.text.dropLast, endIndex := seg.endIndex - 1 }
      let segs2 := segs.set si seg2
      if si < segs.length - 1 then
        match segs2[si + 1]? with
        | some next =>
          (segs2.set (si + 1) { next with text := ch :: next.text, startIndex := next.startIndex - 1 }, ctr)
        | none => (segs2, ctr)
      else
        (segs2 ++ [{ id := ctr + 1, text := [ch], isError := false, isDeleted := false,
                     startIndex := seg2.endIndex, endIndex := seg2.endIndex + 1 }], ctr + 1)

/-- `shrinkRight` (X + ←). Unlike `shrinkLeft`, the minimum-length guard is
checked before the hook fires. -/
def shrinkRight (st : EditorState) (sel : Selection) : EditorState × Bool :=
  match getSelectedSegment st.lines sel with
  | none => (st, false)
  | some (li, si) =>
    match st.lines[li]? with
    | none => (st, false)
    | some line =>
      match line.segments[si]? with
      | none => (st, false)
      | some seg =>
        if seg.text.length ≤ 1 then (st, false)
        else
          let (segs2, ctr2) := shrinkRightSegs st.segmentIdCounter si line.segments
          ({ lines := st.lines.set li { line with segments := segs2 },
             segmentIdCounter := ctr2 }, true)

/-- Segment-list part of `expandRight`: steal the first character of the next
segment (removing it if it becomes empty). -/
def expandRightSegs (si : Nat) (segs : List Segment) : List Segment :=
  if si < segs.length - 1 then
    match segs[si]?, segs[si + 1]? with
    | some seg, some next =>
      -- `next.text.length > 0` guard and `text[0]` together:
      match next.text.head? with
      | some ch =>
        let next2 : Segment := { next with text := next.text.tail, startIndex := next.startIndex + 1 }
        let seg2 : Segment := { seg with text := seg.text ++ [ch], endIndex := next.startIndex + 1 }
        let segs2 := (segs.set si seg2).set (si + 1) next2
        if next2.text.isEmpty then removeAt segs2 (si + 1) else segs2
      | none => segs
    | _, _ => segs
  else segs

/-- `expandRight` (X + →). The hook fires as soon as the selection is valid,
before the next-sibling precondition is examined. -/
def expandRight (st : EditorState) (sel : Selection) : EditorState × Bool :=
  match getSelectedSegment st.lines sel with
  | none => (st, false)
  | some (li, si) =>
    let lines2 := listModify st.lines li
      (fun line => { line with segments := expandRightSegs si line.segments })
    ({ st with lines := lines2 }, true)

/-- `deleteSegment`: toggle the selected segment's `isDeleted` flag
(leaving `isError` untouched). -/
def deleteSegment (st : EditorState) (sel : Selection) : EditorState × Bool :=
  match getSelectedSegment st.lines sel with
  | none => (st, false)
  | some (li, si) =>
    let flip := fun seg => { seg with isDeleted := !seg.isDeleted }
    let lines2 := listModify st.lines li
      (fun line => { line with segments := listModify line.segments si flip })
    ({ st with lines := lines2 }, true)

/-- `toggleError`: the three-state cycle normal → error → excluded → normal. -/
def toggleError (st : EditorState) (sel : Selection) : EditorState × Bool :=
  match getSelectedSegment st.lines sel with
  | none => (st, false)
  | some (li, si) =>
    let cycle := fun (seg : Segment) =>
      if seg.isDeleted then { seg with isDeleted := false, isError := false }
      else if seg.isError then { seg with isError := false, isDeleted := true }
      else { seg with isError := true }
    let lines2 := listModify st.lines li
      (fun line => { line with segments := listModify line.segments si cycle })
    ({ st with lines := lines2 }, true)

/-- Segment-list part of `mergeWithNext` (reached only after the hook fired). -/
def mergeWithNextSegs (si : Nat) (segs : List Segment) : List Segment :=
  match segs[si]?, segs[si + 1]? with
  | some seg, some next =>
    removeAt
      (segs.set si
        { id := seg.id, text := seg.text ++ next.text,
          isError := seg.isError || next.isError,
          isDeleted := seg.isDeleted && next.isDeleted,
          startIndex := seg.startIndex, endIndex := next.endIndex })
      (si + 1)
  | _, _ => segs

/-- `mergeWithNext` (C). The last-segment guard is checked before the hook. -/
def mergeWithNext (st : EditorState) (sel : Selection) : EditorState × Bool :=
  match getSelectedSegment st.lines sel with
  | none => (st, false)
  | some (li, si) =>
    match st.lines[li]? with
    | none => (st, false)
    | some line =>
      if si ≥ line.segments.length - 1 then (st, false)
      else
        let lines2 := st.lines.set li { line with segments := mergeWithNextSegs si line.segments }
        ({ st with lines := lines2 }, true)

/-- Which end `splitSegment` splits from. -/
inductive SplitSide where
  | left
  | right
deriving Repr, DecidableEq

/-- Segment-list part of `splitSegment` (reached only after the hook fired);
threads the id counter for the freshly created segment. -/
def splitSegmentSegs (ctr : Nat) (side : SplitSide) (si : Nat) (segs : List Segment) :
    List Segment × Nat :=
  match segs[si]? with
  | none => (segs, ctr)
  | some seg =>
    match side with
    | .left =>
      match seg.text.head? with
      | none => (segs, ctr)
      | some ch =>
        let newSeg : Segment :=
          { id := ctr + 1, text := [ch], isError := seg.isError, isDeleted := seg.isDeleted,
            startIndex := seg.startIndex, endIndex := seg.startIndex + 1 }
        let seg2 : Segment := { seg with text := seg.text.tail, startIndex := seg.startIndex + 1 }
        (insertAt (segs.set si seg2) si newSeg, ctr + 1)
    | .right =>
      match seg.text.getLast? with
      | none => (segs, ctr)
      | some ch =>
        let newSeg : Segment :=
          { id := ctr + 1, text := [ch], isError := seg.isError, isDeleted := seg.isDeleted,
            startIndex := seg.endIndex - 1, endIndex := seg.endIndex }
        let seg2 : Segment := { seg with text := seg.text.dropLast, endIndex := seg.endIndex - 1 }
        (insertAt (segs.set si seg2) (si + 1) newSeg, ctr + 1)

/-- `splitSegment` (S). The minimum-length guard is checked before the hook. -/
def splitSegment (st : EditorState) (sel : Selection) (side : SplitSide) : EditorState × Bool :=
  match getSelectedSegment st.lines sel with
  | none => (st, false)
  | some (li, si) =>
    match st.lines[li]? with
    | none => (st, false)
    | some line =>
      match line.segments[si]? with
      | none => (st, false)
      | some seg =>
        if seg.text.length < 2 then (st, false)
        else
          let (segs2, ctr2) := splitSegmentSegs st.segmentIdCounter side si line.segments
          ({ lines := st.lines.set li { line with segments := segs2 },
             segmentIdCounter := ctr2 }, true)

/-! ## Tokenizer (`useTextParser`, file `src/unnamed/part_010`)

`tokenizeLine` iterates over the units produced by
`new Intl.Segmenter('zh-TW', { granularity: 'word' }).segment(text)`.
`Intl.Segmenter` is a host-platform API, not repository code; it is modelled
here by passing the unit list (each unit a text with its start index in the
line) as an explicit argument. The platform guarantees that the units tile
the input string contiguously from index 0; that guarantee is the `unitsTile`
hypothesis used by the theorems. -/

/-- One `{ segment, index }` item yielded by the `Intl.Segmenter` iterator. -/
structure SegUnit where
  text : List Char
  index : Nat
deriving Repr, DecidableEq

/-- JavaScript `\s` character class (whitespace, as used by `/^\s+$/`,
`String.prototype.trim`). -/
def isJsWhitespaceChar (c : Char) : Bool :=
  c = ' ' || c = '\t' || c = '\n' || c = '\r' ||
  c = Char.ofNat 11 || c = Char.ofNat 12 || c = Char.ofNat 0xa0 ||
  c = Char.ofNat 0x1680 || (0x2000 ≤ c.toNat && c.toNat ≤ 0x200a) ||
  c = Char.ofNat 0x2028 || c = Char.ofNat 0x2029 || c = Char.ofNat 0x202f ||
  c = Char.ofNat 0x205f || c = Char.ofNat 0x3000 || c = Char.ofNat 0xfeff

/-- `/^\s+$/.test(text)`: non-empty and all whitespace. -/
def isWhitespaceOnly (t : List Char) : Bool :=
  !t.isEmpty && t.all isJsWhitespaceChar

/-- Character class of the Chinese-punctuation regex in `isPunctuation`. -/
def chinesePunctuationChars : List Char :=
  ['，', '。', '、', '；', '：', '？', '！', '「', '」', '『', '』',
   '（', '）', '【', '】', '《', '》', '〈', '〉',
   Char.ofNat 0x22, Char.ofNat 0x22, Char.ofNat 0x27, Char.ofNat 0x27,
   '…', '—', '～', '·']

/-- Character class of the English-punctuation regex in `isPunctuation`. -/
def englishPunctuationChars : List Char :=
  ['.', ',', ';', ':', '?', '!', Char.ofNat 0x27, Char.ofNat 0x22,
   '(', ')', '[', ']', Char.ofNat 0x7b, Char.ofNat 0x7d, '<', '>',
   '@', '#', '$', '%', Char.ofNat 0x5e, '&', Char.ofNat 0x2a,
   '-', '_', '+', '=', '|', Char.ofNat 0x5c, '/', Char.ofNat 0x60, '~']

/-- `isPunctuation`: the text fully matches one of the two
punctuation-only regexes (`/^[...]+$/`). -/
def isPunctuation (t : List Char) : Bool :=
  (!t.isEmpty && t.all (chinesePunctuationChars.contains ·)) ||
  (!t.isEmpty && t.all (englishPunctuationChars.contains ·))

/-- `tokenizeLine`, with the `Intl.Segmenter` unit stream passed explicitly
and the module-level `segmentIdCounter` threaded through. Whitespace-only
units are skipped; every other unit becomes a segment, pre-excluded when it
is punctuation-only. -/
def tokenizeLine (ctr : Nat) (units : List SegUnit) : Nat × List Segment :=
  match units with
  | [] => (ctr, [])
  | u :: us =>
    if isWhitespaceOnly u.text then tokenizeLine ctr us
    else
      let s : Segment :=
        { id := ctr + 1, text := u.text, isError := false, isDeleted := isPunctuation u.text,
          startIndex := (u.index : Int), endIndex := (u.index : Int) + u.text.length }
      let rest := tokenizeLine (ctr + 1) us
      (rest.1, s :: rest.2)

/-- `Intl.Segmenter` guarantee: starting from position `n`, the units are
non-empty and contiguous (each unit's `index` is the end of the previous
one). For a whole line, `unitsTile 0 units` holds with the units covering
the line text. -/
def unitsTile : Nat → List SegUnit → Prop
  | _, [] => True
  | n, u :: us => u.index = n ∧ u.text ≠ [] ∧ unitsTile (n + u.text.length) us

instance : ∀ n units, Decidable (unitsTile n units)
  | _, [] => .isTrue trivial
  | n, u :: us =>
    have : Decidable (unitsTile (n + u.text.length) us) := instDecidableUnitsTile _ us
    inferInstanceAs (Decidable (_ ∧ _ ∧ _))

/-! ## History manager (`useHistory`, file `src/unnamed/part_009`) -/

/-- `HistoryState` from `src/types/index.ts`. -/
structure HistoryState where
  lines : List TextLine
  selectedLineId : Option Nat
  selectedSegmentId : Option Nat
deriving Repr, DecidableEq

def MAX_HISTORY_SIZE : Nat := 50

/-- `cloneLines`: deep copy through a JSON round-trip. On the plain
immutable values of this model a deep copy is the identity; the `catch`
branch (returning `[]`) is unreachable because serialising plain data
cannot fail. -/
def cloneLines (lines : List TextLine) : List TextLine := lines

/-- `saveState`: push a snapshot, evicting the oldest entry (`shift`) when
the stack exceeds `MAX_HISTORY_SIZE`. -/
def saveState (history : List HistoryState) (lines : List TextLine)
    (selectedLineId selectedSegmentId : Option Nat) : List HistoryState :=
  let clonedLines := cloneLines lines
  if clonedLines.length = 0 ∧ lines.length > 0 then history
  else
    let h2 := history ++
      [{ lines := clonedLines, selectedLineId := selectedLineId,
         selectedSegmentId := selectedSegmentId }]
    if h2.length > MAX_HISTORY_SIZE then h2.tail else h2

/-- `undo`: pop and return the most recent snapshot (`none` when empty). -/
def undo (history : List HistoryState) : List HistoryState × Option HistoryState :=
  if history.isEmpty then (history, none)
  else (history.dropLast, history.getLast?)

/-! ## Search engine (`src/composables/useSearch.ts`) -/

/-- `SearchMatch` from `src/types/index.ts`. -/
structure SearchMatch where
  lineId : Nat
  segmentId : Nat
  matchIndex : Nat
  matchLength : Nat
deriving Repr, DecidableEq

/-- The refs held by `useSearch` plus the line collection it reads. -/
structure SearchState where
  lines : List TextLine
  searchQuery : List Char
  isSearchOpen : Bool
  currentMatchIndex : Nat
  caseSensitive : Bool
deriving Repr, DecidableEq

/-- `String.prototype.trim`. -/
def jsTrim (t : List Char) : List Char :=
  ((t.dropWhile isJsWhitespaceChar).reverse.dropWhile isJsWhitespaceChar).reverse

/-- `toLowerCase`, at the per-character granularity exercised here. -/
def jsToLower (t : List Char) : List Char := t.map Char.toLower

/-- Does `p` occur as a substring of `t` at position `i`? -/
def occursAt (p t : List Char) (i : Nat) : Bool :=
  decide ((t.drop i).take p.length = p)

/-- Forward scan for `indexOfFrom`; the fuel argument only bounds the
recursion and `t.length + 1 - s` is always sufficient. -/
def indexOfFromAux (t p : List Char) : Nat → Nat → Option Nat
  | _, 0 => none
  | s, fuel + 1 =>
    if s > t.length then none
    else if occursAt p t s then some s
    else indexOfFromAux t p (s + 1) fuel

/-- `text.indexOf(query, s)`: index of the first occurrence at or after `s`,
found by a forward scan (for the non-empty queries reachable here this is
exactly the JavaScript behaviour). -/
def indexOfFrom (t p : List Char) (s : Nat) : Option Nat :=
  indexOfFromAux t p s (t.length + 1 - s)

/-- The `while (true)` loop of the `matches` computed property, restarting
each search one character after the previous hit. The fuel argument only
bounds the recursion; `t.length + 1 - s` is always sufficient (see
`occurrencesFromAux_fuel`). -/
def occurrencesFromAux (t p : List Char) : Nat → Nat → List Nat
  | _, 0 => []
  | s, fuel + 1 =>
    match indexOfFrom t p s with
    | none => []
    | some i => i :: occurrencesFromAux t p (i + 1) fuel

/-- All match offsets of `p` in `t` at or after `s`, in the order the
source's `indexOf` loop reports them. -/
def occurrencesFrom (t p : List Char) (s : Nat) : List Nat :=
  occurrencesFromAux t p s (t.length + 1 - s)

/-- The `matches` computed property: every occurrence in every segment of
every line, in line, then segment, then offset order. -/
def searchMatches (st : SearchState) : List SearchMatch :=
  if (jsTrim st.searchQuery).isEmpty then []
  else
    let query := if st.caseSensitive then st.searchQuery else jsToLower st.searchQuery
    st.lines.flatMap (fun line =>
      line.segments.flatMap (fun segment =>
        let text := if st.caseSensitive then segment.text else jsToLower segment.text
        (occurrencesFrom text query 0).map (fun m =>
          { lineId := line.id, segmentId := segment.id,
            matchIndex := m, matchLength := query.length })))

/-- The `currentMatch` computed property: the match at the index clamped by
`Math.min` into range (`null` when there are no matches). -/
def currentMatch (st : SearchState) : Option SearchMatch :=
  let ms := searchMatches st
  if ms.length = 0 then none
  else ms[min st.currentMatchIndex (ms.length - 1)]?

/-- The `searchStatus` computed property. Note it interpolates the raw
`currentMatchIndex`, not the clamped index used by `currentMatch`. -/
def searchStatus (st : SearchState) : String :=
  if (jsTrim st.searchQuery).isEmpty then ""
  else
    let ms := searchMatches st
    if ms.length = 0 then "無匹配"
    else toString (st.currentMatchIndex + 1) ++ " / " ++ toString ms.length

/-- `nextMatch`: cyclic successor. -/
def nextMatch (st : SearchState) : SearchState :=
  let ms := searchMatches st
  if ms.length = 0 then st
  else { st with currentMatchIndex := (st.currentMatchIndex + 1) % ms.length }

/-- `prevMatch`: cyclic predecessor. -/
def prevMatch (st : SearchState) : SearchState :=
  let ms := searchMatches st
  if ms.length = 0 then st
  else { st with currentMatchIndex :=
    if st.currentMatchIndex = 0 then ms.length - 1 else st.currentMatchIndex - 1 }

/-- `openSearch`. -/
def openSearch (st : SearchState) : SearchState := { st with isSearchOpen := true }

/-- `closeSearch`: also clears the query and resets the index. -/
def closeSearch (st : SearchState) : SearchState :=
  { st with isSearchOpen := false, searchQuery := [], currentMatchIndex := 0 }

/-- Setting `searchQuery` from the UI; the `watch(searchQuery, ...)` in
`useSearch` resets `currentMatchIndex` to 0 on every change. -/
def setSearchQuery (st : SearchState) (q : List Char) : SearchState :=
  { st with searchQuery := q, currentMatchIndex := 0 }

/-- The document being edited out from under the search (segment text edits,
merges, re-parses): the line collection changes and nothing in `useSearch`
touches `currentMatchIndex`. -/
def setLines (st : SearchState) (lines : List TextLine) : SearchState :=
  { st with lines := lines }

/-- Setting the `caseSensitive` ref from the UI. -/
def setCaseSensitive (st : SearchState) (b : Bool) : SearchState :=
  { st with caseSensitive := b }

/-- States of the search engine reachable through its operations, starting
from the initial ref values (`query = ''`, `index = 0`, closed,
case-insensitive) over an arbitrary initial document. -/
inductive SearchReachable : SearchState → Prop where
  | init (lines : List TextLine) :
      SearchReachable { lines := lines, searchQuery := [], isSearchOpen := false,
                        currentMatchIndex := 0, caseSensitive := false }
  | next {st} : SearchReachable st → SearchReachable (nextMatch st)
  | prev {st} : SearchReachable st → SearchReachable (prevMatch st)
  | query {st} (q : List Char) : SearchReachable st → SearchReachable (setSearchQuery st q)
  | edit {st} (lines : List TextLine) : SearchReachable st → SearchReachable (setLines st lines)
  | openS {st} : SearchReachable st → SearchReachable (openSearch st)
  | closeS {st} : SearchReachable st → SearchReachable (closeSearch st)
  | caseS {st} (b : Bool) : SearchReachable st → SearchReachable (setCaseSensitive st b)

/-! ## Batch merge (`batchMerge` in the root component, file
`src/unnamed/part_000`, lines 313-358)

The `mergeCount` bookkeeping, the one-shot `saveCurrentState` call and the
zero-merge `alert` are side channels not touched by the claims about the
resulting line collection and are not modelled. -/

/-- Direction of `batchMerge`. -/
inductive MergeDir where
  | left
  | right
deriving Repr, DecidableEq

/-- One iteration of the inner reverse loop of `batchMerge`, at index `i`
(`if (!segment) continue` is the out-of-bounds case). -/
def bmBody (target : List Char) (dir : MergeDir) (i : Nat) (segs : List Segment) : List Segment :=
  match segs[i]? with
  | none => segs
  | some seg =>
    if seg.text = target ∧ seg.isDeleted = false ∧ seg.isError = false then
      match dir with
      | .left =>
        if 0 < i then
          match segs[i - 1]? with
          | some prev =>
            removeAt (segs.set (i - 1)
              { prev with text := prev.text ++ seg.text, endIndex := seg.endIndex }) i
          | none => segs
        else segs
      | .right =>
        if i < segs.length - 1 then
          match segs[i + 1]? with
          | some next =>
            removeAt (segs.set (i + 1)
              { next with text := seg.text ++ next.text, startIndex := seg.startIndex }) i
          | none => segs
        else segs
    else segs

/-- The inner loop `for (let i = segments.length - 1; i >= 0; i--)`,
processing index `i` down to 0. -/
def bmLoop (target : List Char) (dir : MergeDir) : Nat → List Segment → List Segment
  | 0, segs => bmBody target dir 0 segs
  | i + 1, segs => bmLoop target dir i (bmBody target dir (i + 1) segs)

/-- `batchMerge`: no-op on a blank merge string, otherwise run the reverse
loop on every line (a line with no segments gets no iterations). -/
def batchMerge (mergeChar : List Char) (dir : MergeDir) (lines : List TextLine) : List TextLine :=
  if (jsTrim mergeChar).isEmpty then lines
  else
    let textToMerge := jsTrim mergeChar
    lines.map (fun line =>
      if line.segments.isEmpty then line
      else { line with segments := bmLoop textToMerge dir (line.segments.length - 1) line.segments })

/-! ## Property-side definitions -/

/-- Concatenation of a line's segment texts, in segment order. -/
def segsText (segs : List Segment) : List Char := (segs.map Segment.text).flatten

/-- The per-line text concatenations of a whole collection. -/
def lineTexts (lines : List TextLine) : List (List Char) :=
  lines.map (fun l => segsText l.segments)

/-- A segment's flags are not simultaneously set. -/
def FlagsOk (s : Segment) : Prop := ¬(s.isError = true ∧ s.isDeleted = true)

/-- Every segment of every line satisfies `FlagsOk`. -/
def LinesFlagsOk (lines : List TextLine) : Prop :=
  ∀ l ∈ lines, ∀ s ∈ l.segments, FlagsOk s

instance (s : Segment) : Decidable (FlagsOk s) :=
  inferInstanceAs (Decidable ¬_)

instance (lines : List TextLine) : Decidable (LinesFlagsOk lines) :=
  inferInstanceAs (Decidable (∀ l ∈ lines, ∀ s ∈ l.segments, FlagsOk s))

/-- The claimed tiling invariant on a line's segment sequence: adjacent
segments abut exactly, and the first segment starts at offset 0. -/
def segsTiled (segs : List Segment) : Prop :=
  (∀ (i : Nat) (a b : Segment), segs[i]? = some a → segs[i + 1]? = some b →
      a.endIndex = b.startIndex) ∧
  (∀ a : Segment, segs[0]? = some a → a.startIndex = 0)

/-- All offsets at which `p` occurs in `t`, in increasing order: the
specification-side description of what the search loop reports. -/
def allOccurrences (t p : List Char) : List Nat :=
  (List.range (t.length + 1)).filter (fun i => occursAt p t i)

/-- The `(id, isError, isDeleted)` keys of the flagged (error or excluded)
segments, in order. -/
def flaggedKeys (segs : List Segment) : List (Nat × Bool × Bool) :=
  segs.filterMap (fun s =>
    if s.isError || s.isDeleted then some (s.id, s.isError, s.isDeleted) else none)

/-! ## Concrete states used by the closed theorems -/

/-- A line holding the single one-character segment `a`. -/
def oneSegLine : TextLine :=
  { id := 1, originalText := ['a'],
    segments := [{ id := 1, text := ['a'], isError := false, isDeleted := false,
                   startIndex := 0, endIndex := 1 }] }

/-- Editor state with `oneSegLine` as the only line. -/
def oneSegState : EditorState := { lines := [oneSegLine], segmentIdCounter := 1000 }

/-- Selection of the single segment of `oneSegLine`. -/
def oneSegSel : Selection := { lineId := some 1, segmentId := some 1 }

/-- Editor state whose single segment is in the error state. -/
def errSegState : EditorState :=
  { lines := [{ id := 1, originalText := ['天'],
                segments := [{ id := 1, text := ['天'], isError := true, isDeleted := false,
                               startIndex := 0, endIndex := 1 }] }],
    segmentIdCounter := 1000 }

/-- A document whose single line is the six-character segment `aaaaaa`. -/
def searchDemoLines6 : List TextLine :=
  [{ id := 1, originalText := ['a', 'a', 'a', 'a', 'a', 'a'],
     segments := [{ id := 1, text := ['a', 'a', 'a', 'a', 'a', 'a'], isError := false,
                    isDeleted := false, startIndex := 0, endIndex := 6 }] }]

/-- The same document after an edit shrank the segment to a single `a`. -/
def searchDemoLines1 : List TextLine :=
  [{ id := 1, originalText := ['a'],
     segments := [{ id := 1, text := ['a'], isError := false, isDeleted := false,
                    startIndex := 0, endIndex := 1 }] }]

/-- A search state reached by: open a document with six `a`s, search for
`a` (6 matches), advance to the sixth match, then edit the text down to a
single `a` without touching the query. -/
def searchShrunkState : SearchState :=
  setLines
    (nextMatch (nextMatch (nextMatch (nextMatch (nextMatch
      (setSearchQuery
        { lines := searchDemoLines6, searchQuery := [], isSearchOpen := false,
          currentMatchIndex := 0, caseSensitive := false } ['a']))))))
    searchDemoLines1

/-- A line with an error-flagged segment `a` followed by a normal segment
`a` (both matching a batch-merge target `a`). -/
def batchErrLines : List TextLine :=
  [{ id := 1, originalText := ['a', 'a'],
     segments := [{ id := 1, text := ['a'], isError := true, isDeleted := false,
                    startIndex := 0, endIndex := 1 },
                  { id := 2, text := ['a'], isError := false, isDeleted := false,
                    startIndex := 1, endIndex := 2 }] }]

/-- A line with a single flagged segment that does not match the target. -/
def batchDemoLines : List TextLine :=
  [{ id := 1, originalText := ['y'],
     segments := [{ id := 1, text := ['y'], isError := true, isDeleted := false,
                    startIndex := 0, endIndex := 1 }] }]

/-! ## List infrastructure lemmas -/

theorem getElem?_lt {l : List α} {i : Nat} {a : α} (h : l[i]? = some a) : i < l.length :=
  (List.getElem?_eq_some.mp h).1

theorem length_take_of_getElem? {l : List α} {i : Nat} {a : α} (h : l[i]? = some a) :
    (l.take i).length = i := by
  have := getElem?_lt h
  simp [List.length_take]
  omega

theorem decomp_of_getElem? {l : List α} {i : Nat} {a : α} (h : l[i]? = some a) :
    l = l.take i ++ a :: l.drop (i + 1) := by
  induction l generalizing i with
  | nil => simp at h
  | cons x xs ih =>
    cases i with
    | zero => simp_all
    | succ n =>
      simp only [List.getElem?_cons_succ] at h
      simpa using ih h

theorem decomp2_of_getElem? {l : List α} {i : Nat} {a b : α}
    (h1 : l[i]? = some a) (h2 : l[i + 1]? = some b) :
    l = l.take i ++ a :: b :: l.drop (i + 2) := by
  induction l generalizing i with
  | nil => simp at h1
  | cons x xs ih =>
    cases i with
    | zero =>
      simp only [List.getElem?_cons_zero, Option.some.injEq] at h1
      subst h1
      cases xs with
      | nil => simp at h2
      | cons y ys => simp_all
    | succ n =>
      simp only [List.getElem?_cons_succ] at h1 h2
      simpa using ih h1 h2

theorem set_positioned (A : List α) (b : α) (C : List α) (b' : α) :
    (A ++ b :: C).set A.length b' = A ++ b' :: C := by
  induction A with
  | nil => rfl
  | cons x xs ih => simpa using ih

theorem removeAt_positioned (A : List α) (b : α) (C : List α) :
    removeAt (A ++ b :: C) A.length = A ++ C := by
  induction A with
  | nil => simp [removeAt]
  | cons x xs ih => simpa [removeAt] using ih

theorem insertAt_positioned (A : List α) (C : List α) (x : α) :
    insertAt (A ++ C) A.length x = A ++ x :: C := by
  induction A with
  | nil => rfl
  | cons y ys ih => simpa [insertAt] using ih

theorem getElem?_positioned (A : List α) (b : α) (C : List α) :
    (A ++ b :: C)[A.length]? = some b := by
  induction A with
  | nil => simp
  | cons x xs ih => simpa using ih

theorem set_positioned_succ (A : List α) (b c : α) (C : List α) (c' : α) :
    (A ++ b :: c :: C).set (A.length + 1) c' = A ++ b :: c' :: C := by
  have h := set_positioned (A ++ [b]) c C c'
  simpa using h

theorem removeAt_positioned_succ (A : List α) (b c : α) (C : List α) :
    removeAt (A ++ b :: c :: C) (A.length + 1) = A ++ b :: C := by
  have h := removeAt_positioned (A ++ [b]) c C
  simpa using h

theorem insertAt_positioned_succ (A : List α) (b : α) (C : List α) (x : α) :
    insertAt (A ++ b :: C) (A.length + 1) x = A ++ b :: x :: C := by
  have h := insertAt_positioned (A ++ [b]) C x
  simpa using h

theorem set_positioned' (A : List α) (b : α) (C : List α) (b' : α) {i : Nat}
    (h : A.length = i) : (A ++ b :: C).set i b' = A ++ b' :: C := by
  subst h; exact set_positioned A b C b'

theorem set_positioned_succ' (A : List α) (b c : α) (C : List α) (c' : α) {i : Nat}
    (h : A.length = i) : (A ++ b :: c :: C).set (i + 1) c' = A ++ b :: c' :: C := by
  subst h; exact set_positioned_succ A b c C c'

theorem removeAt_positioned' (A : List α) (b : α) (C : List α) {i : Nat}
    (h : A.length = i) : removeAt (A ++ b :: C) i = A ++ C := by
  subst h; exact removeAt_positioned A b C

theorem removeAt_positioned_succ' (A : List α) (b c : α) (C : List α) {i : Nat}
    (h : A.length = i) : removeAt (A ++ b :: c :: C) (i + 1) = A ++ b :: C := by
  subst h; exact removeAt_positioned_succ A b c C

theorem insertAt_positioned' (A : List α) (C : List α) (x : α) {i : Nat}
    (h : A.length = i) : insertAt (A ++ C) i x = A ++ x :: C := by
  subst h; exact insertAt_positioned A C x

theorem insertAt_positioned_succ' (A : List α) (b : α) (C : List α) (x : α) {i : Nat}
    (h : A.length = i) : insertAt (A ++ b :: C) (i + 1) x = A ++ b :: x :: C := by
  subst h; exact insertAt_positioned_succ A b C x

theorem getElem?_positioned' (A : List α) (b : α) (C : List α) {i : Nat}
    (h : A.length = i) : (A ++ b :: C)[i]? = some b := by
  subst h; exact getElem?_positioned A b C

theorem getElem?_positioned_succ' (A : List α) (b c : α) (C : List α) {i : Nat}
    (h : A.length = i) : (A ++ b :: c :: C)[i + 1]? = some c := by
  subst h
  have := getElem?_positioned (A ++ [b]) c C
  simpa using this

theorem listModify_eq_of_getElem? {l : List α} {i : Nat} {a : α} (f : α → α)
    (h : l[i]? = some a) :
    listModify l i f = l.take i ++ f a :: l.drop (i + 1) := by
  induction l generalizing i with
  | nil => simp at h
  | cons x xs ih =>
    cases i with
    | zero => simp_all [listModify]
    | succ n =>
      simp only [List.getElem?_cons_succ] at h
      simpa [listModify] using ih h

theorem listModify_oob {l : List α} {i : Nat} (f : α → α) (h : l[i]? = none) :
    listModify l i f = l := by
  induction l generalizing i with
  | nil => rfl
  | cons x xs ih =>
    cases i with
    | zero => simp at h
    | succ n =>
      simp only [List.getElem?_cons_succ] at h
      simpa [listModify] using ih h

/-! ## Text-concatenation algebra -/

theorem segsText_nil : segsText [] = [] := rfl

theorem segsText_cons (s : Segment) (rest : List Segment) :
    segsText (s :: rest) = s.text ++ segsText rest := by
  simp [segsText]

theorem segsText_append (a b : List Segment) :
    segsText (a ++ b) = segsText a ++ segsText b := by
  simp [segsText]

theorem segsText_expandLeftSegs (si : Nat) (segs : List Segment) :
    segsText (expandLeftSegs si segs) = segsText segs := by
  unfold expandLeftSegs
  split
  case isFalse => rfl
  case isTrue hpos =>
    obtain ⟨i, rfl⟩ : ∃ i, si = i + 1 := ⟨si - 1, by omega⟩
    simp only [Nat.add_sub_cancel]
    split
    case h_2 => rfl
    case h_1 prev seg h1 h2 =>
      split
      case h_2 => rfl
      case h_1 ch h3 =>
        have hlast : prev.text.dropLast ++ [ch] = prev.text :=
          List.dropLast_append_getLast? ch (by rw [Option.mem_def, h3])
        have hlen : (segs.take i).length = i := length_take_of_getElem? h1
        have hd := decomp2_of_getElem? h1 h2
        set A := segs.take i with hA
        set C := segs.drop (i + 2) with hC
        rw [hd, set_positioned' _ _ _ _ hlen, set_positioned_succ' _ _ _ _ _ hlen]
        split
        case isTrue hEmpty =>
          rw [removeAt_positioned' _ _ _ hlen]
          simp only [List.isEmpty_iff] at hEmpty
          have : prev.text = [ch] := by rw [← hlast, hEmpty]; rfl
          simp [segsText_append, segsText_cons, this]
        case isFalse =>
          simp only [segsText_append, segsText_cons]
          rw [← hlast]
          simp [List.append_assoc]

theorem segsText_shrinkLeftSegs (ctr si : Nat) (segs : List Segment) :
    segsText (shrinkLeftSegs ctr si segs).1 = segsText segs := by
  unfold shrinkLeftSegs
  split
  case h_1 => rfl
  case h_2 seg h1 =>
    split
    case isTrue => rfl
    case isFalse hlen1 =>
      split
      case h_1 => rfl
      case h_2 ch h2 =>
        set t := seg.text.tail with ht
        have hhead : ch :: t = seg.text := by
          rw [ht]
          cases htext : seg.text with
          | nil => rw [htext] at h2; simp at h2
          | cons c rest => rw [htext] at h2; simp at h2; simp [h2]
        split
        case isTrue hpos =>
          obtain ⟨j, rfl⟩ : ∃ j, si = j + 1 := ⟨si - 1, by omega⟩
          have hj : j < segs.length := by have := getElem?_lt h1; omega
          have hp : segs[j]? = some segs[j] := List.getElem?_eq_getElem hj
          have hd := decomp2_of_getElem? hp h1
          have hlen : (segs.take j).length = j := length_take_of_getElem? hp
          set p := segs[j] with hpdef
          set A := segs.take j with hA
          set C := segs.drop (j + 2) with hC
          rw [hd]
          simp only [Nat.add_sub_cancel]
          rw [set_positioned_succ' _ _ _ _ _ hlen]
          split
          case h_2 hnone =>
            rw [getElem?_positioned' _ _ _ hlen] at hnone
            exact absurd hnone (by simp)
          case h_1 prev h5 =>
            rw [getElem?_positioned' _ _ _ hlen] at h5
            obtain rfl : p = prev := by injection h5
            rw [set_positioned' _ _ _ _ hlen]
            simp only [segsText_append, segsText_cons]
            rw [← hhead]
            simp [List.append_assoc]
        case isFalse hpos =>
          have hsi : si = 0 := by omega
          subst hsi
          cases segs with
          | nil => simp at h1
          | cons s0 rest =>
            obtain rfl : s0 = seg := by simpa using h1
            simp only [insertAt, segsText_cons, List.set_cons_zero, List.take_zero,
              List.drop_zero, List.nil_append, segsText_append]
            rw [← hhead]
            simp

theorem segsText_shrinkRightSegs (ctr si : Nat) (segs : List Segment) :
    segsText (shrinkRightSegs ctr si segs).1 = segsText segs := by
  unfold shrinkRightSegs
  split
  case h_1 => rfl
  case h_2 seg h1 =>
    split
    case h_1 => rfl
    case h_2 ch h2 =>
      have hlast : seg.text.dropLast ++ [ch] = seg.text :=
        List.dropLast_append_getLast? ch (by rw [Option.mem_def, h2])
      have hsi : si < segs.length := getElem?_lt h1
      have hd := decomp_of_getElem? h1
      have hlen : (segs.take si).length = si := length_take_of_getElem? h1
      split
      case isTrue hlt =>
        have hsi1 : si + 1 < segs.length := by omega
        have hnext : segs[si + 1]? = some segs[si + 1] := List.getElem?_eq_getElem hsi1
        have hd2 := decomp2_of_getElem? h1 hnext
        set nx := segs[si + 1] with hnx
        set A := segs.take si with hA
        set C2 := segs.drop (si + 2) with hC2
        rw [hd2]
        dsimp only
        rw [set_positioned' _ _ _ _ hlen]
        split
        case h_2 hnone =>
          rw [getElem?_positioned_succ' _ _ _ _ hlen] at hnone
          exact absurd hnone (by simp)
        case h_1 next h5 =>
          rw [getElem?_positioned_succ' _ _ _ _ hlen] at h5
          obtain rfl : nx = next := by injection h5
          rw [set_positioned_succ' _ _ _ _ _ hlen]
          simp only [segsText_append, segsText_cons]
          rw [← hlast]
          simp [List.append_assoc]
      case isFalse hge =>
        set A := segs.take si with hA
        set C := segs.drop (si + 1) with hC
        have hCnil : C = [] := by
          rw [hC]
          apply List.drop_eq_nil_of_le
          omega
        rw [hd]
        dsimp only
        rw [set_positioned' _ _ _ _ hlen, hCnil]
        simp only [segsText_append, segsText_cons]
        rw [← hlast]
        simp [segsText]

theorem segsText_expandRightSegs (si : Nat) (segs : List Segment) :
    segsText (expandRightSegs si segs) = segsText segs := by
  unfold expandRightSegs
  split
  case isFalse => rfl
  case isTrue hlt =>
    split
    case h_2 => rfl
    case h_1 seg next h1 h2 =>
      split
      case h_2 => rfl
      case h_1 ch h3 =>
        set t := next.text.tail with ht
        have hhead : ch :: t = next.text := by
          rw [ht]
          cases htext : next.text with
          | nil => rw [htext] at h3; simp at h3
          | cons c rest => rw [htext] at h3; simp at h3; simp [h3]
        have hd := decomp2_of_getElem? h1 h2
        have hlen : (segs.take si).length = si := length_take_of_getElem? h1
        set A := segs.take si with hA
        set C := segs.drop (si + 2) with hC
        rw [hd]
        dsimp only
        rw [set_positioned' _ _ _ _ hlen, set_positioned_succ' _ _ _ _ _ hlen]
        split
        case isTrue hEmpty =>
          rw [removeAt_positioned_succ' _ _ _ _ hlen]
          simp only [List.isEmpty_iff] at hEmpty
          have hnx : next.text = [ch] := by rw [← hhead, hEmpty]
          simp [segsText_append, segsText_cons, hnx, List.append_assoc]
        case isFalse =>
          simp only [segsText_append, segsText_cons]
          rw [← hhead]
          simp [List.append_assoc]

theorem segsText_mergeWithNextSegs (si : Nat) (segs : List Segment) :
    segsText (mergeWithNextSegs si segs) = segsText segs := by
  unfold mergeWithNextSegs
  split
  case h_2 => rfl
  case h_1 seg next h1 h2 =>
    have hd := decomp2_of_getElem? h1 h2
    have hlen : (segs.take si).length = si := length_take_of_getElem? h1
    set A := segs.take si with hA
    set C := segs.drop (si + 2) with hC
    rw [hd, set_positioned' _ _ _ _ hlen, removeAt_positioned_succ' _ _ _ _ hlen]
    simp [segsText_append, segsText_cons, List.append_assoc]

theorem segsText_splitSegmentSegs (ctr : Nat) (side : SplitSide) (si : Nat)
    (segs : List Segment) :
    segsText (splitSegmentSegs ctr side si segs).1 = segsText segs := by
  unfold splitSegmentSegs
  split
  case h_1 => rfl
  case h_2 seg h1 =>
    have hd := decomp_of_getElem? h1
    have hlen : (segs.take si).length = si := length_take_of_getElem? h1
    set A := segs.take si with hA
    set C := segs.drop (si + 1) with hC
    cases side with
    | left =>
      dsimp only
      split
      case h_1 => rfl
      case h_2 ch h2 =>
        set t := seg.text.tail with ht
        have hhead : ch :: t = seg.text := by
          rw [ht]
          cases htext : seg.text with
          | nil => rw [htext] at h2; simp at h2
          | cons c rest => rw [htext] at h2; simp at h2; simp [h2]
        rw [hd, set_positioned' _ _ _ _ hlen, insertAt_positioned' _ _ _ hlen]
        simp only [segsText_append, segsText_cons]
        rw [← hhead]
        simp
    | right =>
      dsimp only
      split
      case h_1 => rfl
      case h_2 ch h2 =>
        have hlast : seg.text.dropLast ++ [ch] = seg.text :=
          List.dropLast_append_getLast? ch (by rw [Option.mem_def, h2])
        rw [hd, set_positioned' _ _ _ _ hlen, insertAt_positioned_succ' _ _ _ _ hlen]
        simp only [segsText_append, segsText_cons]
        rw [← hlast]
        simp [List.append_assoc]

theorem lineTexts_listModify (lines : List TextLine) (li : Nat) (f : TextLine → TextLine)
    (h : ∀ l, segsText (f l).segments = segsText l.segments) :
    lineTexts (listModify lines li f) = lineTexts lines := by
  induction lines generalizing li with
  | nil => rfl
  | cons x xs ih =>
    cases li with
    | zero => simp [listModify, lineTexts, h]
    | succ n =>
      have := ih n
      simp only [listModify, lineTexts, List.map_cons] at this ⊢
      rw [this]

theorem lineTexts_set_of_getElem? {lines : List TextLine} {li : Nat} {line : TextLine}
    (h : lines[li]? = some line) (line' : TextLine)
    (hseg : segsText line'.segments = segsText line.segments) :
    lineTexts (lines.set li line') = lineTexts lines := by
  induction lines generalizing li with
  | nil => simp at h
  | cons x xs ih =>
    cases li with
    | zero =>
      obtain rfl : x = line := by simpa using h
      simp [lineTexts, hseg]
    | succ n =>
      simp only [List.getElem?_cons_succ] at h
      have := ih h
      simp only [lineTexts, List.map_cons, List.set_cons_succ] at this ⊢
      rw [this]

theorem lineTexts_expandLeft (st : EditorState) (sel : Selection) :
    lineTexts (expandLeft st sel).1.lines = lineTexts st.lines := by
  unfold expandLeft
  split
  · rfl
  · exact lineTexts_listModify _ _ _ (fun l => segsText_expandLeftSegs _ l.segments)

theorem lineTexts_expandRight (st : EditorState) (sel : Selection) :
    lineTexts (expandRight st sel).1.lines = lineTexts st.lines := by
  unfold expandRight
  split
  · rfl
  · exact lineTexts_listModify _ _ _ (fun l => segsText_expandRightSegs _ l.segments)

theorem lineTexts_shrinkLeft (st : EditorState) (sel : Selection) :
    lineTexts (shrinkLeft st sel).1.lines = lineTexts st.lines := by
  unfold shrinkLeft
  split
  · rfl
  case h_2 li si hsel =>
    split
    · rfl
    case h_2 line hline =>
      refine lineTexts_set_of_getElem? hline _ ?_
      exact segsText_shrinkLeftSegs st.segmentIdCounter si line.segments

theorem lineTexts_shrinkRight (st : EditorState) (sel : Selection) :
    lineTexts (shrinkRight st sel).1.lines = lineTexts st.lines := by
  unfold shrinkRight
  split
  · rfl
  case h_2 li si hsel =>
    split
    · rfl
    case h_2 line hline =>
      split
      · rfl
      case h_2 seg hseg =>
        split
        · rfl
        case isFalse =>
          refine lineTexts_set_of_getElem? hline _ ?_
          exact segsText_shrinkRightSegs st.segmentIdCounter si line.segments

theorem lineTexts_mergeWithNext (st : EditorState) (sel : Selection) :
    lineTexts (mergeWithNext st sel).1.lines = lineTexts st.lines := by
  unfold mergeWithNext
  split
  · rfl
  case h_2 li si hsel =>
    split
    · rfl
    case h_2 line hline =>
      split
      · rfl
      case isFalse =>
        exact lineTexts_set_of_getElem? hline _ (segsText_mergeWithNextSegs si line.segments)

theorem lineTexts_splitSegment (st : EditorState) (sel : Selection) (side : SplitSide) :
    lineTexts (splitSegment st sel side).1.lines = lineTexts st.lines := by
  unfold splitSegment
  split
  · rfl
  case h_2 li si hsel =>
    split
    · rfl
    case h_2 line hline =>
      split
      · rfl
      case h_2 seg hseg =>
        split
        · rfl
        case isFalse =>
          refine lineTexts_set_of_getElem? hline _ ?_
          exact segsText_splitSegmentSegs st.segmentIdCounter side si line.segments

theorem mergeWithNextSegs_eq {segs : List Segment} {si : Nat} {seg next : Segment}
    (hseg : segs[si]? = some seg) (hnext : segs[si + 1]? = some next) :
    mergeWithNextSegs si segs =
      segs.take si ++
        { id := seg.id, text := seg.text ++ next.text,
          isError := seg.isError || next.isError,
          isDeleted := seg.isDeleted && next.isDeleted,
          startIndex := seg.startIndex, endIndex := next.endIndex } ::
        segs.drop (si + 2) := by
  unfold mergeWithNextSegs
  rw [hseg, hnext]
  dsimp only
  have hlen : (segs.take si).length = si := length_take_of_getElem? hseg
  have hd := decomp2_of_getElem? hseg hnext
  conv_lhs => rw [hd]
  rw [set_positioned' _ _ _ _ hlen, removeAt_positioned_succ' _ _ _ _ hlen]

/-- C4: every boundary edit — `expandLeft`, `shrinkLeft`, `shrinkRight`,
`expandRight`, `splitSegment` (either side), `mergeWithNext` — leaves the
concatenation of each line's segment texts, in segment order, unchanged, for
every editor state and every selection (in particular for every selected
segment whose preconditions allow a change). -/
theorem C4_boundary_edits_preserve_concatenation (st : EditorState) (sel : Selection)
    (side : SplitSide) :
    lineTexts (expandLeft st sel).1.lines = lineTexts st.lines ∧
    lineTexts (shrinkLeft st sel).1.lines = lineTexts st.lines ∧
    lineTexts (shrinkRight st sel).1.lines = lineTexts st.lines ∧
    lineTexts (expandRight st sel).1.lines = lineTexts st.lines ∧
    lineTexts (splitSegment st sel side).1.lines = lineTexts st.lines ∧
    lineTexts (mergeWithNext st sel).1.lines = lineTexts st.lines :=
  ⟨lineTexts_expandLeft st sel, lineTexts_shrinkLeft st sel, lineTexts_shrinkRight st sel,
   lineTexts_expandRight st sel, lineTexts_splitSegment st sel side,
   lineTexts_mergeWithNext st sel⟩

/-- C5: for a valid selection that is not the last segment of its line,
`mergeWithNext` replaces the selected segment and its successor by a single
segment whose text is the concatenation of the two texts, whose `endIndex`
is the successor's former `endIndex`, whose `isError` is the OR and whose
`isDeleted` is the AND of the two segments' flags; the successor is removed
and everything else is unchanged. -/
theorem C5_mergeWithNext_spec (st : EditorState) (sel : Selection) (li si : Nat)
    (line : TextLine) (seg next : Segment)
    (hsel : getSelectedSegment st.lines sel = some (li, si))
    (hline : st.lines[li]? = some line)
    (hseg : line.segments[si]? = some seg)
    (hnext : line.segments[si + 1]? = some next) :
    (mergeWithNext st sel).1.lines =
      st.lines.set li
        { line with segments :=
            line.segments.take si ++
              { id := seg.id, text := seg.text ++ next.text,
                isError := seg.isError || next.isError,
                isDeleted := seg.isDeleted && next.isDeleted,
                startIndex := seg.startIndex, endIndex := next.endIndex } ::
              line.segments.drop (si + 2) } ∧
    (mergeWithNext st sel).2 = true := by
  have hlt : ¬si ≥ line.segments.length - 1 := by
    have := getElem?_lt hnext
    omega
  unfold mergeWithNext
  rw [hsel]
  dsimp only
  rw [hline]
  dsimp only
  rw [if_neg hlt, mergeWithNextSegs_eq hseg hnext]
  exact ⟨rfl, rfl⟩

/-- Witness for C5: merging the segment `今天` (normal) with the next
segment `天氣` (error) in a concrete two-segment line yields the single
segment `今天天氣` with `isError = true`, `isDeleted = false`, the original
start offset and the successor's end offset. -/
theorem C5_mergeWithNext_witness :
    (mergeWithNext
        { lines := [{ id := 1,
                      originalText := ['今', '天', '天', '氣'],
                      segments :=
                        [{ id := 1, text := ['今', '天'], isError := false, isDeleted := false,
                           startIndex := 0, endIndex := 2 },
                         { id := 2, text := ['天', '氣'], isError := true, isDeleted := false,
                           startIndex := 2, endIndex := 4 }] }],
          segmentIdCounter := 1000 }
        { lineId := some 1, segmentId := some 1 }).1.lines =
      [{ id := 1,
         originalText := ['今', '天', '天', '氣'],
         segments :=
           [{ id := 1, text := ['今', '天', '天', '氣'], isError := true, isDeleted := false,
              startIndex := 0, endIndex := 4 }] }] := by
  have h := C5_mergeWithNext_spec
    { lines := [{ id := 1,
                  originalText := ['今', '天', '天', '氣'],
                  segments :=
                    [{ id := 1, text := ['今', '天'], isError := false, isDeleted := false,
                       startIndex := 0, endIndex := 2 },
                     { id := 2, text := ['天', '氣'], isError := true, isDeleted := false,
                       startIndex := 2, endIndex := 4 }] }],
      segmentIdCounter := 1000 }
    { lineId := some 1, segmentId := some 1 }
    0 0
    { id := 1,
      originalText := ['今', '天', '天', '氣'],
      segments :=
        [{ id := 1, text := ['今', '天'], isError := false, isDeleted := false,
           startIndex := 0, endIndex := 2 },
         { id := 2, text := ['天', '氣'], isError := true, isDeleted := false,
           startIndex := 2, endIndex := 4 }] }
    { id := 1, text := ['今', '天'], isError := false, isDeleted := false,
      startIndex := 0, endIndex := 2 }
    { id := 2, text := ['天', '氣'], isError := true, isDeleted := false,
      startIndex := 2, endIndex := 4 }
    (by decide) (by decide) (by decide) (by decide)
  exact h.1.trans (by decide)

/-- C1: on a valid selection whose operation precondition fails, every
operation leaves the line collection unchanged, but the three operations
`expandLeft`, `shrinkLeft` and `expandRight` nevertheless invoke the
before-action history hook (second component `true`), contradicting the
claim; only `shrinkRight`, `splitSegment` and `mergeWithNext` skip it.
Evaluated on a one-line, one-one-character-segment state where every
precondition fails (no neighbours, text length 1). -/
theorem C1_failed_precondition_hook_evaluation :
    (expandLeft oneSegState oneSegSel).1 = oneSegState ∧
    (expandLeft oneSegState oneSegSel).2 = true ∧
    (shrinkLeft oneSegState oneSegSel).1 = oneSegState ∧
    (shrinkLeft oneSegState oneSegSel).2 = true ∧
    (expandRight oneSegState oneSegSel).1 = oneSegState ∧
    (expandRight oneSegState oneSegSel).2 = true ∧
    shrinkRight oneSegState oneSegSel = (oneSegState, false) ∧
    splitSegment oneSegState oneSegSel .left = (oneSegState, false) ∧
    splitSegment oneSegState oneSegSel .right = (oneSegState, false) ∧
    mergeWithNext oneSegState oneSegSel = (oneSegState, false) := by
  decide

/-! ## Flag-invariant machinery (for the error/excluded exclusivity claim) -/

theorem mem_removeAt {l : List α} {i : Nat} {x : α} (h : x ∈ removeAt l i) : x ∈ l := by
  unfold removeAt at h
  rcases List.mem_append.mp h with h | h
  · exact List.mem_of_mem_take h
  · exact List.mem_of_mem_drop h

theorem mem_insertAt {l : List α} {i : Nat} {a x : α} (h : x ∈ insertAt l i a) :
    x ∈ l ∨ x = a := by
  unfold insertAt at h
  rcases List.mem_append.mp h with h | h
  · exact .inl (List.mem_of_mem_take h)
  · rcases List.mem_cons.mp h with h | h
    · exact .inr h
    · exact .inl (List.mem_of_mem_drop h)

theorem mem_listModify {l : List α} {i : Nat} {f : α → α} {x : α}
    (h : x ∈ listModify l i f) : x ∈ l ∨ ∃ y ∈ l, x = f y := by
  induction l generalizing i with
  | nil => simp [listModify] at h
  | cons a as ih =>
    cases i with
    | zero =>
      rcases List.mem_cons.mp h with h | h
      · exact .inr ⟨a, List.mem_cons_self a as, h⟩
      · exact .inl (List.mem_cons_of_mem a h)
    | succ n =>
      rcases List.mem_cons.mp h with h | h
      · exact .inl (h ▸ List.mem_cons_self a as)
      · rcases ih h with h | ⟨y, hy, hxy⟩
        · exact .inl (List.mem_cons_of_mem a h)
        · exact .inr ⟨y, List.mem_cons_of_mem a hy, hxy⟩

theorem mem_set {l : List α} {i : Nat} {a x : α} (h : x ∈ l.set i a) : x ∈ l ∨ x = a :=
  List.mem_or_eq_of_mem_set h

theorem flagsOk_expandLeftSegs {si : Nat} {segs : List Segment}
    (h : ∀ s ∈ segs, FlagsOk s) : ∀ s ∈ expandLeftSegs si segs, FlagsOk s := by
  intro s' hs'
  unfold expandLeftSegs at hs'
  split at hs'
  case isFalse => exact h s' hs'
  case isTrue =>
    split at hs'
    case h_2 => exact h s' hs'
    case h_1 prev seg h1 h2 =>
      split at hs'
      case h_2 => exact h s' hs'
      case h_1 ch h3 =>
        have hprev : FlagsOk prev := h prev (List.getElem?_mem h1)
        have hseg : FlagsOk seg := h seg (List.getElem?_mem h2)
        dsimp only at hs'
        split at hs'
        case isTrue =>
          rcases mem_set (mem_removeAt hs') with hmem | rfl
          · rcases mem_set hmem with hmem | rfl
            · exact h s' hmem
            · exact hprev
          · exact hseg
        case isFalse =>
          rcases mem_set hs' with hmem | rfl
          · rcases mem_set hmem with hmem | rfl
            · exact h s' hmem
            · exact hprev
          · exact hseg

theorem flagsOk_shrinkLeftSegs {ctr si : Nat} {segs : List Segment}
    (h : ∀ s ∈ segs, FlagsOk s) : ∀ s ∈ (shrinkLeftSegs ctr si segs).1, FlagsOk s := by
  intro s' hs'
  unfold shrinkLeftSegs at hs'
  split at hs'
  case h_1 => exact h s' hs'
  case h_2 seg h1 =>
    have hseg : FlagsOk seg := h seg (List.getElem?_mem h1)
    split at hs'
    case isTrue => exact h s' hs'
    case isFalse =>
      split at hs'
      case h_1 => exact h s' hs'
      case h_2 ch h2 =>
        dsimp only at hs'
        split at hs'
        case isTrue =>
          split at hs'
          case h_1 prev h5 =>
            have hprev : FlagsOk prev := by
              rcases mem_set (List.getElem?_mem h5) with hmem | rfl
              · exact h prev hmem
              · exact hseg
            rcases mem_set hs' with hmem | rfl
            · rcases mem_set hmem with hmem | rfl
              · exact h s' hmem
              · exact hseg
            · exact hprev
          case h_2 =>
            rcases mem_set hs' with hmem | rfl
            · exact h s' hmem
            · exact hseg
        case isFalse =>
          rcases mem_insertAt hs' with hmem | rfl
          · rcases mem_set hmem with hmem | rfl
            · exact h s' hmem
            · exact hseg
          · intro hcon
            simp at hcon

theorem flagsOk_shrinkRightSegs {ctr si : Nat} {segs : List Segment}
    (h : ∀ s ∈ segs, FlagsOk s) : ∀ s ∈ (shrinkRightSegs ctr si segs).1, FlagsOk s := by
  intro s' hs'
  unfold shrinkRightSegs at hs'
  split at hs'
  case h_1 => exact h s' hs'
  case h_2 seg h1 =>
    have hseg : FlagsOk seg := h seg (List.getElem?_mem h1)
    split at hs'
    case h_1 => exact h s' hs'
    case h_2 ch h2 =>
      dsimp only at hs'
      split at hs'
      case isTrue =>
        split at hs'
        case h_1 next h5 =>
          have hnext : FlagsOk next := by
            rcases mem_set (List.getElem?_mem h5) with hmem | rfl
            · exact h next hmem
            · exact hseg
          rcases mem_set hs' with hmem | rfl
          · rcases mem_set hmem with hmem | rfl
            · exact h s' hmem
            · exact hseg
          · exact hnext
        case h_2 =>
          rcases mem_set hs' with hmem | rfl
          · exact h s' hmem
          · exact hseg
      case isFalse =>
        rcases List.mem_append.mp hs' with hmem | hmem
        · rcases mem_set hmem with hmem | rfl
          · exact h s' hmem
          · exact hseg
        · obtain rfl := List.mem_singleton.mp hmem
          intro hcon
          simp at hcon

theorem flagsOk_expandRightSegs {si : Nat} {segs : List Segment}
    (h : ∀ s ∈ segs, FlagsOk s) : ∀ s ∈ expandRightSegs si segs, FlagsOk s := by
  intro s' hs'
  unfold expandRightSegs at hs'
  split at hs'
  case isFalse => exact h s' hs'
  case isTrue =>
    split at hs'
    case h_2 => exact h s' hs'
    case h_1 seg next h1 h2 =>
      have hseg : FlagsOk seg := h seg (List.getElem?_mem h1)
      have hnext : FlagsOk next := h next (List.getElem?_mem h2)
      split at hs'
      case h_2 => exact h s' hs'
      case h_1 ch h3 =>
        dsimp only at hs'
        split at hs'
        case isTrue =>
          rcases mem_set (mem_removeAt hs') with hmem | rfl
          · rcases mem_set hmem with hmem | rfl
            · exact h s' hmem
            · exact hseg
          · exact hnext
        case isFalse =>
          rcases mem_set hs' with hmem | rfl
          · rcases mem_set hmem with hmem | rfl
            · exact h s' hmem
            · exact hseg
          · exact hnext

theorem flagsOk_mergeWithNextSegs {si : Nat} {segs : List Segment}
    (h : ∀ s ∈ segs, FlagsOk s) : ∀ s ∈ mergeWithNextSegs si segs, FlagsOk s := by
  intro s' hs'
  unfold mergeWithNextSegs at hs'
  split at hs'
  case h_2 => exact h s' hs'
  case h_1 seg next h1 h2 =>
    have hseg : FlagsOk seg := h seg (List.getElem?_mem h1)
    have hnext : FlagsOk next := h next (List.getElem?_mem h2)
    rcases mem_set (mem_removeAt hs') with hmem | rfl
    · exact h s' hmem
    · unfold FlagsOk at hseg hnext ⊢
      cases e1 : seg.isError <;> cases e2 : next.isError <;>
        cases d1 : seg.isDeleted <;> cases d2 : next.isDeleted <;>
        simp_all

theorem flagsOk_splitSegmentSegs {ctr : Nat} {side : SplitSide} {si : Nat}
    {segs : List Segment}
    (h : ∀ s ∈ segs, FlagsOk s) : ∀ s ∈ (splitSegmentSegs ctr side si segs).1, FlagsOk s := by
  intro s' hs'
  unfold splitSegmentSegs at hs'
  split at hs'
  case h_1 => exact h s' hs'
  case h_2 seg h1 =>
    have hseg : FlagsOk seg := h seg (List.getElem?_mem h1)
    cases side with
    | left =>
      dsimp only at hs'
      split at hs'
      case h_1 => exact h s' hs'
      case h_2 ch h2 =>
        rcases mem_insertAt hs' with hmem | rfl
        · rcases mem_set hmem with hmem | rfl
          · exact h s' hmem
          · exact hseg
        · exact hseg
    | right =>
      dsimp only at hs'
      split at hs'
      case h_1 => exact h s' hs'
      case h_2 ch h2 =>
        rcases mem_insertAt hs' with hmem | rfl
        · rcases mem_set hmem with hmem | rfl
          · exact h s' hmem
          · exact hseg
        · exact hseg

theorem linesFlagsOk_listModify {lines : List TextLine} {li : Nat} {f : TextLine → TextLine}
    (h : LinesFlagsOk lines)
    (hf : ∀ l ∈ lines, (∀ s ∈ l.segments, FlagsOk s) → ∀ s ∈ (f l).segments, FlagsOk s) :
    LinesFlagsOk (listModify lines li f) := by
  intro l' hl' s hs
  rcases mem_listModify hl' with hmem | ⟨y, hy, rfl⟩
  · exact h l' hmem s hs
  · exact hf y hy (h y hy) s hs

theorem linesFlagsOk_set {lines : List TextLine} {li : Nat} {line' : TextLine}
    (h : LinesFlagsOk lines)
    (hf : ∀ s ∈ line'.segments, FlagsOk s) : LinesFlagsOk (lines.set li line') := by
  intro l' hl' s hs
  rcases mem_set hl' with hmem | rfl
  · exact h l' hmem s hs
  · exact hf s hs

theorem linesFlagsOk_expandLeft (st : EditorState) (sel : Selection)
    (h : LinesFlagsOk st.lines) : LinesFlagsOk (expandLeft st sel).1.lines := by
  unfold expandLeft
  split
  · exact h
  · exact linesFlagsOk_listModify h (fun l _ hseg => flagsOk_expandLeftSegs hseg)

theorem linesFlagsOk_expandRight (st : EditorState) (sel : Selection)
    (h : LinesFlagsOk st.lines) : LinesFlagsOk (expandRight st sel).1.lines := by
  unfold expandRight
  split
  · exact h
  · exact linesFlagsOk_listModify h (fun l _ hseg => flagsOk_expandRightSegs hseg)

theorem linesFlagsOk_shrinkLeft (st : EditorState) (sel : Selection)
    (h : LinesFlagsOk st.lines) : LinesFlagsOk (shrinkLeft st sel).1.lines := by
  unfold shrinkLeft
  split
  · exact h
  case h_2 li si hsel =>
    split
    · exact h
    case h_2 line hline =>
      exact linesFlagsOk_set h
        (flagsOk_shrinkLeftSegs (h line (List.getElem?_mem hline)))

theorem linesFlagsOk_shrinkRight (st : EditorState) (sel : Selection)
    (h : LinesFlagsOk st.lines) : LinesFlagsOk (shrinkRight st sel).1.lines := by
  unfold shrinkRight
  split
  · exact h
  case h_2 li si hsel =>
    split
    · exact h
    case h_2 line hline =>
      split
      · exact h
      case h_2 seg hseg =>
        split
        · exact h
        case isFalse =>
          exact linesFlagsOk_set h
            (flagsOk_shrinkRightSegs (h line (List.getElem?_mem hline)))

theorem linesFlagsOk_mergeWithNext (st : EditorState) (sel : Selection)
    (h : LinesFlagsOk st.lines) : LinesFlagsOk (mergeWithNext st sel).1.lines := by
  unfold mergeWithNext
  split
  · exact h
  case h_2 li si hsel =>
    split
    · exact h
    case h_2 line hline =>
      split
      · exact h
      case isFalse =>
        exact linesFlagsOk_set h
          (flagsOk_mergeWithNextSegs (h line (List.getElem?_mem hline)))

theorem linesFlagsOk_splitSegment (st : EditorState) (sel : Selection) (side : SplitSide)
    (h : LinesFlagsOk st.lines) : LinesFlagsOk (splitSegment st sel side).1.lines := by
  unfold splitSegment
  split
  · exact h
  case h_2 li si hsel =>
    split
    · exact h
    case h_2 line hline =>
      split
      · exact h
      case h_2 seg hseg =>
        split
        · exact h
        case isFalse =>
          exact linesFlagsOk_set h
            (flagsOk_splitSegmentSegs (h line (List.getElem?_mem hline)))

theorem linesFlagsOk_toggleError (st : EditorState) (sel : Selection)
    (h : LinesFlagsOk st.lines) : LinesFlagsOk (toggleError st sel).1.lines := by
  unfold toggleError
  split
  · exact h
  case h_2 li si hsel =>
    refine linesFlagsOk_listModify h (fun l _ hseg => ?_)
    intro s hs
    rcases mem_listModify hs with hmem | ⟨y, hy, rfl⟩
    · exact hseg s hmem
    · cases hd : y.isDeleted <;> cases he : y.isError <;> simp [FlagsOk, hd, he]

theorem tokenizeLine_isError_false (ctr : Nat) (units : List SegUnit) :
    ∀ s ∈ (tokenizeLine ctr units).2, s.isError = false := by
  induction units generalizing ctr with
  | nil => simp [tokenizeLine]
  | cons u us ih =>
    intro s hs
    unfold tokenizeLine at hs
    split at hs
    · exact ih ctr s hs
    · dsimp only at hs
      rcases List.mem_cons.mp hs with rfl | hs
      · rfl
      · exact ih (ctr + 1) s hs

/-- Counterexample to C3: on a reachable state satisfying the
never-both-flags invariant, `deleteSegment` applied to a segment in the
error state toggles `isDeleted` on while leaving `isError` set, producing a
segment with both flags true. -/
theorem C3_deleteSegment_counterexample :
    LinesFlagsOk errSegState.lines ∧
    ¬LinesFlagsOk (deleteSegment errSegState oneSegSel).1.lines := by
  constructor
  · decide
  · decide

/-- C3 as amended: `toggleError`, all boundary edits, merge, split and
tokenization preserve (or establish) the invariant that `isError` and
`isDeleted` are never simultaneously true; `deleteSegment` is the exception
and is excluded, since it toggles `isDeleted` without clearing `isError`. -/
theorem C3_flags_invariant_preserved (st : EditorState) (sel : Selection) (side : SplitSide)
    (h : LinesFlagsOk st.lines) :
    LinesFlagsOk (toggleError st sel).1.lines ∧
    LinesFlagsOk (expandLeft st sel).1.lines ∧
    LinesFlagsOk (shrinkLeft st sel).1.lines ∧
    LinesFlagsOk (shrinkRight st sel).1.lines ∧
    LinesFlagsOk (expandRight st sel).1.lines ∧
    LinesFlagsOk (mergeWithNext st sel).1.lines ∧
    LinesFlagsOk (splitSegment st sel side).1.lines ∧
    (∀ ctr units, ∀ s ∈ (tokenizeLine ctr units).2, FlagsOk s) :=
  ⟨linesFlagsOk_toggleError st sel h, linesFlagsOk_expandLeft st sel h,
   linesFlagsOk_shrinkLeft st sel h, linesFlagsOk_shrinkRight st sel h,
   linesFlagsOk_expandRight st sel h, linesFlagsOk_mergeWithNext st sel h,
   linesFlagsOk_splitSegment st sel side h,
   fun ctr units s hs hcon => by
     have := tokenizeLine_isError_false ctr units s hs
     rw [this] at hcon
     exact absurd hcon.1 (by simp)⟩

/-- Witness for the amended C3 at a concrete state satisfying the invariant. -/
theorem C3_flags_invariant_witness :
    LinesFlagsOk (toggleError oneSegState oneSegSel).1.lines ∧
    LinesFlagsOk (expandLeft oneSegState oneSegSel).1.lines ∧
    LinesFlagsOk (shrinkLeft oneSegState oneSegSel).1.lines ∧
    LinesFlagsOk (shrinkRight oneSegState oneSegSel).1.lines ∧
    LinesFlagsOk (expandRight oneSegState oneSegSel).1.lines ∧
    LinesFlagsOk (mergeWithNext oneSegState oneSegSel).1.lines ∧
    LinesFlagsOk (splitSegment oneSegState oneSegSel SplitSide.left).1.lines ∧
    (∀ ctr units, ∀ s ∈ (tokenizeLine ctr units).2, FlagsOk s) :=
  C3_flags_invariant_preserved oneSegState oneSegSel SplitSide.left (by decide)

/-! ## History-bound machinery -/

theorem saveState_push (hist : List HistoryState) (lines : List TextLine)
    (a b : Option Nat) :
    saveState hist lines a b =
      (if (hist ++ [({ lines := lines, selectedLineId := a, selectedSegmentId := b } :
              HistoryState)]).length > 50
       then (hist ++ [({ lines := lines, selectedLineId := a, selectedSegmentId := b } :
              HistoryState)]).tail
       else hist ++ [({ lines := lines, selectedLineId := a, selectedSegmentId := b } :
              HistoryState)]) := by
  unfold saveState cloneLines MAX_HISTORY_SIZE
  rw [if_neg (by omega)]

theorem tail_append_singleton_of_ne_nil {l : List α} (x : α) (h : l ≠ []) :
    (l ++ [x]).tail = l.tail ++ [x] := by
  cases l with
  | nil => exact absurd rfl h
  | cons a as => rfl

theorem saveState_foldl (snaps : List HistoryState) :
    ∀ hist : List HistoryState, hist.length ≤ 50 →
      snaps.foldl (fun acc s => saveState acc s.lines s.selectedLineId s.selectedSegmentId) hist
        = (hist ++ snaps).drop (hist.length + snaps.length - 50) := by
  induction snaps with
  | nil =>
    intro hist hle
    simp only [List.foldl_nil, List.append_nil, List.length_nil, Nat.add_zero]
    rw [Nat.sub_eq_zero_of_le hle, List.drop_zero]
  | cons s ss ih =>
    intro hist hle
    have heta : ({ lines := s.lines, selectedLineId := s.selectedLineId,
                   selectedSegmentId := s.selectedSegmentId } : HistoryState) = s := rfl
    rw [List.foldl_cons, saveState_push, heta]
    by_cases hlt : hist.length < 50
    · rw [if_neg (by simp only [List.length_append, List.length_singleton, List.length_cons, List.length_nil]; omega)]
      rw [ih (hist ++ [s]) (by simp only [List.length_append, List.length_singleton, List.length_cons, List.length_nil]; omega)]
      have hn : (hist ++ [s]).length + ss.length - 50 = hist.length + (s :: ss).length - 50 := by
        simp only [List.length_append, List.length_singleton, List.length_cons, List.length_nil]
        omega
      rw [hn, List.append_assoc, List.singleton_append]
    · have h50 : hist.length = 50 := by omega
      rw [if_pos (by simp only [List.length_append, List.length_singleton, List.length_cons, List.length_nil]; omega)]
      have hne : hist ≠ [] := by
        intro hnil
        rw [hnil] at h50
        simp at h50
      rw [tail_append_singleton_of_ne_nil s hne]
      have htl : (hist.tail ++ [s]).length ≤ 50 := by
        cases hist with
        | nil => exact absurd rfl hne
        | cons a as =>
          simp only [List.length_cons] at h50
          simp only [List.tail_cons, List.length_append, List.length_singleton, List.length_cons, List.length_nil]
          omega
      rw [ih (hist.tail ++ [s]) htl]
      cases hist with
      | nil => exact absurd rfl hne
      | cons a as =>
        simp only [List.length_cons] at h50
        have hn1 : (List.tail (a :: as) ++ [s]).length + ss.length - 50 = ss.length := by
          simp only [List.tail_cons, List.length_append, List.length_singleton, List.length_cons, List.length_nil]
          omega
        have hn2 : (a :: as).length + (s :: ss).length - 50 = ss.length + 1 := by
          simp only [List.length_cons]
          omega
        rw [hn1, hn2]
        simp only [List.tail_cons, List.append_assoc, List.singleton_append, List.cons_append,
          List.nil_append]
        rw [List.drop_succ_cons]

/-- C9: the undo stack is bounded by 50: saving 60 snapshots onto an
initially empty history leaves exactly the 50 most recent snapshots, in
order — the 10 oldest are evicted. -/
theorem C9_history_bound (snaps : List HistoryState) (h60 : snaps.length = 60) :
    snaps.foldl (fun acc s => saveState acc s.lines s.selectedLineId s.selectedSegmentId) []
        = snaps.drop 10 ∧
      (snaps.foldl (fun acc s => saveState acc s.lines s.selectedLineId s.selectedSegmentId)
        []).length = 50 := by
  have h := saveState_foldl snaps [] (by simp)
  simp only [List.nil_append, List.length_nil, Nat.zero_add, h60] at h
  refine ⟨h, ?_⟩
  rw [h, List.length_drop, h60]

/-- Witness for C9 on 60 concrete snapshots. -/
theorem C9_history_bound_witness :
    ((List.range 60).map (fun i =>
        ({ lines := [], selectedLineId := some i, selectedSegmentId := none } : HistoryState))).foldl
        (fun acc s => saveState acc s.lines s.selectedLineId s.selectedSegmentId) []
      = ((List.range 60).map (fun i =>
          ({ lines := [], selectedLineId := some i, selectedSegmentId := none } : HistoryState))).drop
          10 ∧
    (((List.range 60).map (fun i =>
        ({ lines := [], selectedLineId := some i, selectedSegmentId := none } : HistoryState))).foldl
        (fun acc s => saveState acc s.lines s.selectedLineId s.selectedSegmentId) []).length = 50 :=
  C9_history_bound _ (by simp)

/-! ## Tokenizer tiling -/

theorem tokenizeLine_tiled_from (units : List SegUnit) :
    ∀ (ctr n : Nat), unitsTile n units →
      (∀ u ∈ units, isWhitespaceOnly u.text = false) →
      (∀ (i : Nat) (a b : Segment), (tokenizeLine ctr units).2[i]? = some a →
          (tokenizeLine ctr units).2[i + 1]? = some b → a.endIndex = b.startIndex) ∧
      (∀ a : Segment, (tokenizeLine ctr units).2[0]? = some a → a.startIndex = (n : Int)) := by
  induction units with
  | nil =>
    intro ctr n _ _
    exact ⟨fun i a b ha _ => by simp [tokenizeLine] at ha,
           fun a ha => by simp [tokenizeLine] at ha⟩
  | cons u us ih =>
    intro ctr n ht hw
    obtain ⟨hidx, hne, ht'⟩ := ht
    have hwu : isWhitespaceOnly u.text = false := hw u (by simp)
    obtain ⟨ih1, ih2⟩ := ih (ctr + 1) (n + u.text.length) ht' (fun v hv => hw v (by simp [hv]))
    simp only [tokenizeLine, hwu, Bool.false_eq_true, if_false]
    constructor
    · intro i a b ha hb
      cases i with
      | zero =>
        simp only [List.getElem?_cons_zero, Option.some.injEq] at ha
        simp only [List.getElem?_cons_succ] at hb
        have hb0 := ih2 b hb
        rw [← ha, hb0, hidx]
        dsimp only
        push_cast
        ring
      | succ j =>
        simp only [List.getElem?_cons_succ] at ha hb
        exact ih1 j a b ha hb
    · intro a ha
      simp only [List.getElem?_cons_zero, Option.some.injEq] at ha
      rw [← ha, hidx]

/-- Counterexample to C2 as stated: for the line `a b`, whose
`Intl.Segmenter` word units are `a`(0), ` `(1), `b`(2), the whitespace unit
is dropped and the two produced segments do not abut
(`endIndex 1 ≠ startIndex 2`); for the line ` a`, with units ` `(0), `a`(1),
the first produced segment does not start at offset 0. -/
theorem C2_tiling_counterexample :
    unitsTile 0 [⟨['a'], 0⟩, ⟨[' '], 1⟩, ⟨['b'], 2⟩] ∧
    ¬segsTiled (tokenizeLine 0 [⟨['a'], 0⟩, ⟨[' '], 1⟩, ⟨['b'], 2⟩]).2 ∧
    unitsTile 0 [⟨[' '], 0⟩, ⟨['a'], 1⟩] ∧
    ¬segsTiled (tokenizeLine 0 [⟨[' '], 0⟩, ⟨['a'], 1⟩]).2 := by
  refine ⟨by decide, fun h => ?_, by decide, fun h => ?_⟩
  · have := h.1 0
      { id := 1, text := ['a'], isError := false, isDeleted := false,
        startIndex := 0, endIndex := 1 }
      { id := 2, text := ['b'], isError := false, isDeleted := false,
        startIndex := 2, endIndex := 3 }
      (by decide) (by decide)
    exact absurd this (by decide)
  · have := h.2
      { id := 1, text := ['a'], isError := false, isDeleted := false,
        startIndex := 1, endIndex := 2 }
      (by decide)
    exact absurd this (by decide)

/-- C2 as amended: immediately after tokenization the tiling invariant
(adjacent segments abut, first segment starts at 0) holds for every line
whose `Intl.Segmenter` unit stream contains no whitespace-only unit; when a
whitespace-only unit is dropped, the retained segments keep their original
offsets, leaving a gap (and a positive first offset after a leading
whitespace unit). -/
theorem C2_tiling_after_tokenization (ctr : Nat) (units : List SegUnit)
    (ht : unitsTile 0 units)
    (hw : ∀ u ∈ units, isWhitespaceOnly u.text = false) :
    segsTiled (tokenizeLine ctr units).2 := by
  obtain ⟨h1, h2⟩ := tokenizeLine_tiled_from units ctr 0 ht hw
  exact ⟨h1, fun a ha => by simpa using h2 a ha⟩

/-- Witness for the amended C2 on the two-unit line `ab` (units `a`(0),
`b`(1)). -/
theorem C2_tiling_witness :
    unitsTile 0 [⟨['a'], 0⟩, ⟨['b'], 1⟩] ∧
    (∀ u ∈ [(⟨['a'], 0⟩ : SegUnit), ⟨['b'], 1⟩], isWhitespaceOnly u.text = false) ∧
    segsTiled (tokenizeLine 0 [⟨['a'], 0⟩, ⟨['b'], 1⟩]).2 :=
  ⟨by decide, by decide,
   C2_tiling_after_tokenization 0 [⟨['a'], 0⟩, ⟨['b'], 1⟩] (by decide) (by decide)⟩

/-! ## Selection and index machinery for the split/merge round trip -/

theorem findIdx?_cons_eq (p : α → Bool) (a : α) (l : List α) :
    (a :: l).findIdx? p = if p a then some 0 else (l.findIdx? p).map (· + 1) := by
  rw [List.findIdx?_cons]
  split
  · rfl
  · rw [List.findIdx?_succ]

theorem findIdx?_set_congr {l : List α} {i : Nat} {b : α} (p : α → Bool) (a : α)
    (h : l[i]? = some b) (hp : p a = p b) : (l.set i a).findIdx? p = l.findIdx? p := by
  induction l generalizing i with
  | nil => simp at h
  | cons x xs ih =>
    cases i with
    | zero =>
      obtain rfl : x = b := by simpa using h
      simp [findIdx?_cons_eq, hp]
    | succ n =>
      simp only [List.getElem?_cons_succ] at h
      simp [List.set_cons_succ, findIdx?_cons_eq, ih h]

theorem findIdx?_positioned (p : α → Bool) (A : List α) (b : α) (C : List α)
    (hA : ∀ x ∈ A, p x = false) (hb : p b = true) :
    (A ++ b :: C).findIdx? p = some A.length := by
  induction A with
  | nil => simp [findIdx?_cons_eq, hb]
  | cons x xs ih =>
    have hx : p x = false := hA x (by simp)
    simp [findIdx?_cons_eq, hx, ih (fun y hy => hA y (by simp [hy]))]

theorem getElem?_set_self_of_lt {l : List α} {i : Nat} (a : α) (h : i < l.length) :
    (l.set i a)[i]? = some a := by
  simp [List.getElem?_set_self', h]

theorem take_positioned' (A C : List α) {i : Nat} (h : A.length = i) : (A ++ C).take i = A := by
  subst h
  exact List.take_left A C

theorem drop2_positioned' (A : List α) (b c : α) (C : List α) {i : Nat} (h : A.length = i) :
    (A ++ b :: c :: C).drop (i + 2) = C := by
  subst h
  rw [show A ++ b :: c :: C = (A ++ [b, c]) ++ C by simp]
  rw [show A.length + 2 = (A ++ [b, c]).length by simp]
  exact List.drop_left _ _

theorem getSelectedSegment_some {lines : List TextLine} {sel : Selection} {li si : Nat}
    (h : getSelectedSegment lines sel = some (li, si)) :
    lines.findIdx? (fun l => some l.id == sel.lineId) = some li ∧
    ∃ line, lines[li]? = some line ∧
      line.segments.findIdx? (fun s => some s.id == sel.segmentId) = some si ∧
      ∃ seg, line.segments[si]? = some seg := by
  unfold getSelectedSegment at h
  split at h
  · exact absurd h (by simp)
  case h_2 li' hf =>
    split at h
    · exact absurd h (by simp)
    case h_2 line hline =>
      split at h
      · exact absurd h (by simp)
      case h_2 si' hfs =>
        split at h
        · exact absurd h (by simp)
        case h_2 seg hseg =>
          obtain ⟨rfl, rfl⟩ : li' = li ∧ si' = si := by
            have := h
            simp only [Option.some.injEq, Prod.mk.injEq] at this
            exact this
          exact ⟨hf, line, hline, hfs, seg, hseg⟩

theorem getSelectedSegment_mk {lines : List TextLine} {sel : Selection} {li si : Nat}
    {line : TextLine} {seg : Segment}
    (hf : lines.findIdx? (fun l => some l.id == sel.lineId) = some li)
    (hline : lines[li]? = some line)
    (hfs : line.segments.findIdx? (fun s => some s.id == sel.segmentId) = some si)
    (hseg : line.segments[si]? = some seg) :
    getSelectedSegment lines sel = some (li, si) := by
  unfold getSelectedSegment
  rw [hf]
  dsimp only
  rw [hline]
  dsimp only
  rw [hfs]
  dsimp only
  rw [hseg]

/-- C6: `splitSegment('left')` followed by `mergeWithNext` on the freshly
created first segment restores a single segment at the original position
with the original text, offsets and flags; only its id is the fresh id
produced by the split. The freshness hypothesis states that the id the
split will generate does not already occur in the line (always true in the
running system, where ids are generated from the monotonic counter). -/
theorem C6_split_merge_round_trip (st : EditorState) (sel : Selection) (li si : Nat)
    (line : TextLine) (seg : Segment)
    (hsel : getSelectedSegment st.lines sel = some (li, si))
    (hline : st.lines[li]? = some line)
    (hseg : line.segments[si]? = some seg)
    (hlen2 : 2 ≤ seg.text.length)
    (hfresh : ∀ s ∈ line.segments, s.id ≠ st.segmentIdCounter + 1) :
    (mergeWithNext (splitSegment st sel .left).1
        { lineId := sel.lineId, segmentId := some (st.segmentIdCounter + 1) }).1.lines =
      st.lines.set li
        { line with segments :=
            line.segments.set si { seg with id := st.segmentIdCounter + 1 } } := by
  obtain ⟨ch, t, htext⟩ : ∃ ch t, seg.text = ch :: t := by
    cases htx : seg.text with
    | nil => rw [htx] at hlen2; simp at hlen2
    | cons c r => exact ⟨c, r, rfl⟩
  obtain ⟨hfL, line0, hline0, hfS0, seg0, hseg0⟩ := getSelectedSegment_some hsel
  have hheadch : seg.text.head? = some ch := by rw [htext]; rfl
  have hlenA : (line.segments.take si).length = si := length_take_of_getElem? hseg
  have hd := decomp_of_getElem? hseg
  set A := line.segments.take si with hA
  set C := line.segments.drop (si + 1) with hC
  set N : Segment :=
    { id := st.segmentIdCounter + 1, text := [ch], isError := seg.isError,
      isDeleted := seg.isDeleted, startIndex := seg.startIndex,
      endIndex := seg.startIndex + 1 } with hN
  set S2 : Segment :=
    { seg with text := seg.text.tail, startIndex := seg.startIndex + 1 } with hS2
  have hsegseq : splitSegmentSegs st.segmentIdCounter .left si line.segments =
      (A ++ N :: S2 :: C, st.segmentIdCounter + 1) := by
    unfold splitSegmentSegs
    rw [hseg]
    dsimp only
    rw [hheadch]
    dsimp only
    conv_lhs => rw [hd]
    rw [set_positioned' _ _ _ _ hlenA, insertAt_positioned' _ _ _ hlenA]
  have hsplit : splitSegment st sel .left =
      ({ lines := st.lines.set li { line with segments := A ++ N :: S2 :: C },
         segmentIdCounter := st.segmentIdCounter + 1 }, true) := by
    unfold splitSegment
    rw [hsel]
    dsimp only
    rw [hline]
    dsimp only
    rw [hseg]
    dsimp only
    rw [if_neg (by omega), hsegseq]
  rw [hsplit]
  dsimp only
  have hfL1 : (st.lines.set li { line with segments := A ++ N :: S2 :: C }).findIdx?
      (fun l => some l.id == sel.lineId) = some li :=
    (findIdx?_set_congr _ { line with segments := A ++ N :: S2 :: C } hline rfl).trans hfL
  have hline1 : (st.lines.set li { line with segments := A ++ N :: S2 :: C })[li]? =
      some { line with segments := A ++ N :: S2 :: C } :=
    getElem?_set_self_of_lt _ (getElem?_lt hline)
  have hfS1 : (A ++ N :: S2 :: C).findIdx?
      (fun s => some s.id == some (st.segmentIdCounter + 1)) = some si := by
    have hpre : ∀ x ∈ A, (some x.id == some (st.segmentIdCounter + 1)) = false := by
      intro x hx
      have hxmem : x ∈ line.segments := List.mem_of_mem_take (hA ▸ hx)
      have := hfresh x hxmem
      simp [this]
    have := findIdx?_positioned
      (fun s => some s.id == some (st.segmentIdCounter + 1)) A N (S2 :: C) hpre (by simp)
    rwa [hlenA] at this
  have hseg1 : (A ++ N :: S2 :: C)[si]? = some N := getElem?_positioned' _ _ _ hlenA
  have hnext1 : (A ++ N :: S2 :: C)[si + 1]? = some S2 := getElem?_positioned_succ' _ _ _ _ hlenA
  have hsel2 : getSelectedSegment (st.lines.set li { line with segments := A ++ N :: S2 :: C })
      { lineId := sel.lineId, segmentId := some (st.segmentIdCounter + 1) } = some (li, si) :=
    getSelectedSegment_mk hfL1 hline1 hfS1 hseg1
  unfold mergeWithNext
  rw [hsel2]
  dsimp only
  rw [hline1]
  dsimp only
  rw [if_neg (by
    simp only [List.length_append, List.length_cons]
    omega)]
  rw [mergeWithNextSegs_eq hseg1 hnext1]
  dsimp only
  rw [List.set_set]
  rw [take_positioned' _ _ hlenA, drop2_positioned' _ _ _ _ hlenA]
  conv_rhs => rw [hd, set_positioned' _ _ _ _ hlenA]
  have hmerged :
      ({ id := N.id, text := N.text ++ S2.text, isError := N.isError || S2.isError,
         isDeleted := N.isDeleted && S2.isDeleted, startIndex := N.startIndex,
         endIndex := S2.endIndex } : Segment) =
      { seg with id := st.segmentIdCounter + 1 } := by
    rw [hN, hS2]
    simp only [Bool.or_self, Bool.and_self]
    have htail : [ch] ++ seg.text.tail = seg.text := by rw [htext]; rfl
    simp only [List.singleton_append] at htail
    simp [htail]
  rw [hmerged]

/-- Witness for C6: splitting the two-character segment `ab` on the left and
merging the new first segment with its successor restores a single segment
`ab` with the original offsets (and the fresh id 1001). -/
theorem C6_split_merge_round_trip_witness :
    (mergeWithNext
        (splitSegment
          { lines := [{ id := 1, originalText := ['a', 'b'],
                        segments := [{ id := 1, text := ['a', 'b'], isError := false,
                                       isDeleted := false, startIndex := 0, endIndex := 2 }] }],
            segmentIdCounter := 1000 }
          { lineId := some 1, segmentId := some 1 } .left).1
        { lineId := some 1, segmentId := some 1001 }).1.lines =
      [{ id := 1, originalText := ['a', 'b'],
         segments := [{ id := 1001, text := ['a', 'b'], isError := false,
                        isDeleted := false, startIndex := 0, endIndex := 2 }] }] := by
  have h := C6_split_merge_round_trip
    { lines := [{ id := 1, originalText := ['a', 'b'],
                  segments := [{ id := 1, text := ['a', 'b'], isError := false,
                                 isDeleted := false, startIndex := 0, endIndex := 2 }] }],
      segmentIdCounter := 1000 }
    { lineId := some 1, segmentId := some 1 }
    0 0
    { id := 1, originalText := ['a', 'b'],
      segments := [{ id := 1, text := ['a', 'b'], isError := false,
                     isDeleted := false, startIndex := 0, endIndex := 2 }] }
    { id := 1, text := ['a', 'b'], isError := false, isDeleted := false,
      startIndex := 0, endIndex := 2 }
    (by decide) (by decide) (by decide) (by decide) (by decide)
  exact h.trans (by decide)

/-! ## Search-scan machinery -/

theorem occursAt_false_of_gt {q t : List Char} {i : Nat} (hq : q ≠ [])
    (hi : t.length < i) : occursAt q t i = false := by
  unfold occursAt
  have hdrop : t.drop i = [] := List.drop_eq_nil_of_le (Nat.le_of_lt hi)
  rw [hdrop]
  simp only [List.take_nil, decide_eq_false_iff_not]
  intro hcon
  exact hq hcon.symm

theorem indexOfFromAux_some_spec (t q : List Char) :
    ∀ (m s i : Nat), indexOfFromAux t q s m = some i →
      s ≤ i ∧ i ≤ t.length ∧ occursAt q t i = true ∧
      ∀ j, s ≤ j → j < i → occursAt q t j = false := by
  intro m
  induction m with
  | zero =>
    intro s i h
    exact absurd h (by simp [indexOfFromAux])
  | succ m ih =>
    intro s i h
    unfold indexOfFromAux at h
    by_cases hs : s > t.length
    · rw [if_pos hs] at h
      exact absurd h (by simp)
    · rw [if_neg hs] at h
      by_cases hocc : occursAt q t s = true
      · rw [if_pos hocc] at h
        obtain rfl : s = i := Option.some.inj h
        exact ⟨Nat.le_refl s, by omega, hocc, fun j h1 h2 => by omega⟩
      · rw [if_neg hocc] at h
        obtain ⟨h1, h2, h3, h4⟩ := ih (s + 1) i h
        refine ⟨by omega, h2, h3, fun j hj1 hj2 => ?_⟩
        rcases Nat.eq_or_lt_of_le hj1 with rfl | hlt
        · simpa using hocc
        · exact h4 j hlt hj2

theorem indexOfFromAux_none_spec (t q : List Char) :
    ∀ (m s : Nat), t.length + 1 - s ≤ m → indexOfFromAux t q s m = none →
      ∀ j, s ≤ j → j ≤ t.length → occursAt q t j = false := by
  intro m
  induction m with
  | zero =>
    intro s hm _ j hj1 hj2
    omega
  | succ m ih =>
    intro s hm h j hj1 hj2
    unfold indexOfFromAux at h
    by_cases hs : s > t.length
    · omega
    · rw [if_neg hs] at h
      by_cases hocc : occursAt q t s = true
      · rw [if_pos hocc] at h
        exact absurd h (by simp)
      · rw [if_neg hocc] at h
        rcases Nat.eq_or_lt_of_le hj1 with rfl | hlt
        · simpa using hocc
        · exact ih (s + 1) (by omega) h j hlt hj2

theorem indexOfFrom_some_spec {t q : List Char} {s i : Nat}
    (h : indexOfFrom t q s = some i) :
    s ≤ i ∧ i ≤ t.length ∧ occursAt q t i = true ∧
      ∀ j, s ≤ j → j < i → occursAt q t j = false :=
  indexOfFromAux_some_spec t q (t.length + 1 - s) s i h

theorem indexOfFrom_none_spec {t q : List Char} {s : Nat}
    (h : indexOfFrom t q s = none) :
    ∀ j, s ≤ j → j ≤ t.length → occursAt q t j = false :=
  indexOfFromAux_none_spec t q (t.length + 1 - s) s (Nat.le_refl _) h

theorem occurrencesFromAux_mem {t q : List Char} (hq : q ≠ []) :
    ∀ (m s i : Nat), t.length + 1 - s ≤ m →
      (i ∈ occurrencesFromAux t q s m ↔ s ≤ i ∧ occursAt q t i = true) := by
  intro m
  induction m with
  | zero =>
    intro s i hm
    simp only [occurrencesFromAux, List.not_mem_nil, false_iff, not_and]
    intro hsi
    have hgt : t.length < i := by omega
    simp [occursAt_false_of_gt hq hgt]
  | succ m ih =>
    intro s i hm
    unfold occurrencesFromAux
    cases hidx : indexOfFrom t q s with
    | none =>
      simp only [List.not_mem_nil, false_iff, not_and]
      intro hsi
      by_cases hle : i ≤ t.length
      · simp [indexOfFrom_none_spec hidx i hsi hle]
      · have hgt : t.length < i := by omega
        simp [occursAt_false_of_gt hq hgt]
    | some i0 =>
      obtain ⟨h1, h2, h3, h4⟩ := indexOfFrom_some_spec hidx
      have hrec := ih (i0 + 1) i (by omega)
      simp only [List.mem_cons, hrec]
      constructor
      · rintro (rfl | ⟨hge, hocc⟩)
        · exact ⟨h1, h3⟩
        · exact ⟨by omega, hocc⟩
      · rintro ⟨hsi, hocc⟩
        rcases Nat.lt_trichotomy i i0 with hlt | rfl | hgt
        · exact absurd hocc (by simp [h4 i hsi hlt])
        · exact .inl rfl
        · exact .inr ⟨by omega, hocc⟩

theorem occurrencesFromAux_pairwise {t q : List Char} (hq : q ≠ []) :
    ∀ (m s : Nat), t.length + 1 - s ≤ m →
      List.Pairwise (· < ·) (occurrencesFromAux t q s m) := by
  intro m
  induction m with
  | zero => intro s _; simp [occurrencesFromAux]
  | succ m ih =>
    intro s hm
    unfold occurrencesFromAux
    cases hidx : indexOfFrom t q s with
    | none => simp
    | some i0 =>
      obtain ⟨h1, h2, _, _⟩ := indexOfFrom_some_spec hidx
      refine List.Pairwise.cons (fun j hj => ?_) (ih (i0 + 1) (by omega))
      have := (occurrencesFromAux_mem hq m (i0 + 1) j (by omega)).mp hj
      omega

theorem occurrencesFrom_mem {t q : List Char} (hq : q ≠ []) (i : Nat) :
    i ∈ occurrencesFrom t q 0 ↔ occursAt q t i = true := by
  unfold occurrencesFrom
  rw [occurrencesFromAux_mem hq (t.length + 1 - 0) 0 i (Nat.le_refl _)]
  simp

theorem occurrencesFrom_pairwise {t q : List Char} (hq : q ≠ []) :
    List.Pairwise (· < ·) (occurrencesFrom t q 0) :=
  occurrencesFromAux_pairwise hq (t.length + 1 - 0) 0 (Nat.le_refl _)

/-- C8: with a case-sensitive, non-blank query, the search returns the
matches of every segment of every line in line order, then segment order,
then offset order within a segment; within a segment the reported offset
list is strictly increasing and contains exactly the offsets at which the
query occurs — the scan advances one character after each hit, so
overlapping occurrences are all reported. In particular segment text `aaa`
with query `aa` yields exactly the two matches at offsets 0 and 1. -/
theorem C8_search_all_occurrences (st : SearchState)
    (hcs : st.caseSensitive = true)
    (hq : (jsTrim st.searchQuery).isEmpty = false) :
    searchMatches st =
      st.lines.flatMap (fun line =>
        line.segments.flatMap (fun segment =>
          (occurrencesFrom segment.text st.searchQuery 0).map (fun m =>
            { lineId := line.id, segmentId := segment.id, matchIndex := m,
              matchLength := st.searchQuery.length }))) ∧
    (∀ txt query : List Char, query ≠ [] →
        List.Pairwise (· < ·) (occurrencesFrom txt query 0) ∧
        ∀ i : Nat, i ∈ occurrencesFrom txt query 0 ↔ occursAt query txt i = true) ∧
    occurrencesFrom ['a', 'a', 'a'] ['a', 'a'] 0 = [0, 1] := by
  refine ⟨?_, fun txt query hne => ⟨occurrencesFrom_pairwise hne, occurrencesFrom_mem hne⟩,
    by decide⟩
  unfold searchMatches
  rw [hq, hcs]
  simp

/-- Witness for C8 on a concrete state: one line whose single segment is
`aaa`, case-sensitive query `aa`. -/
theorem C8_search_all_occurrences_witness :
    searchMatches
        { lines := [{ id := 1, originalText := ['a', 'a', 'a'],
                      segments := [{ id := 1, text := ['a', 'a', 'a'], isError := false,
                                     isDeleted := false, startIndex := 0, endIndex := 3 }] }],
          searchQuery := ['a', 'a'], isSearchOpen := true, currentMatchIndex := 0,
          caseSensitive := true } =
      ([{ id := 1, originalText := ['a', 'a', 'a'],
          segments := [{ id := 1, text := ['a', 'a', 'a'], isError := false,
                         isDeleted := false, startIndex := 0, endIndex := 3 }] }] :
        List TextLine).flatMap
        (fun line =>
          line.segments.flatMap (fun segment =>
            (occurrencesFrom segment.text ['a', 'a'] 0).map (fun m =>
              { lineId := line.id, segmentId := segment.id, matchIndex := m,
                matchLength := (['a', 'a'] : List Char).length }))) ∧
    (∀ txt query : List Char, query ≠ [] →
        List.Pairwise (· < ·) (occurrencesFrom txt query 0) ∧
        ∀ i : Nat, i ∈ occurrencesFrom txt query 0 ↔ occursAt query txt i = true) ∧
    occurrencesFrom ['a', 'a', 'a'] ['a', 'a'] 0 = [0, 1] :=
  C8_search_all_occurrences
    { lines := [{ id := 1, originalText := ['a', 'a', 'a'],
                  segments := [{ id := 1, text := ['a', 'a', 'a'], isError := false,
                                 isDeleted := false, startIndex := 0, endIndex := 3 }] }],
      searchQuery := ['a', 'a'], isSearchOpen := true, currentMatchIndex := 0,
      caseSensitive := true }
    (by decide) (by decide)

/-- Counterexample to C7 as stated: `searchShrunkState` is reachable, has
the non-blank query `a` and exactly one match, yet its maintained index is
5 (not clamped; only the derived `currentMatch` accessor clamps) and the
status text reports `6 / 1`: a 1-based position greater than the total. -/
theorem C7_status_counterexample :
    SearchReachable searchShrunkState ∧
    (jsTrim searchShrunkState.searchQuery).isEmpty = false ∧
    (searchMatches searchShrunkState).length = 1 ∧
    searchShrunkState.currentMatchIndex = 5 ∧
    searchStatus searchShrunkState = "6 / 1" := by
  refine ⟨?_, by decide, by decide, by decide, by decide⟩
  exact SearchReachable.edit searchDemoLines1
    (SearchReachable.next (SearchReachable.next (SearchReachable.next
      (SearchReachable.next (SearchReachable.next
        (SearchReachable.query ['a'] (SearchReachable.init searchDemoLines6)))))))

/-- C7 as amended: in every state with a non-empty match list, the derived
`currentMatch` is the match at the index clamped by `min` into range — a
valid position — but the maintained `currentMatchIndex` itself is not
re-clamped when the match list shrinks without a query change, and the
status text interpolates the raw index, reporting `index+1 / total`, which
can exceed the total. -/
theorem C7_current_match_clamped (st : SearchState)
    (hne : (searchMatches st).length ≠ 0) :
    (∃ m, currentMatch st = some m ∧
        (searchMatches st)[min st.currentMatchIndex ((searchMatches st).length - 1)]? = some m ∧
        min st.currentMatchIndex ((searchMatches st).length - 1) < (searchMatches st).length) ∧
    ((jsTrim st.searchQuery).isEmpty = false →
      searchStatus st =
        toString (st.currentMatchIndex + 1) ++ " / " ++ toString (searchMatches st).length) := by
  constructor
  · have hlt : min st.currentMatchIndex ((searchMatches st).length - 1) <
        (searchMatches st).length := by
      have : (searchMatches st).length - 1 < (searchMatches st).length := by omega
      omega
    refine ⟨(searchMatches st).get ⟨_, hlt⟩, ?_, ?_, hlt⟩
    · unfold currentMatch
      rw [if_neg hne]
      simp [List.getElem?_eq_getElem hlt]
    · simp [List.getElem?_eq_getElem hlt]
  · intro hq
    unfold searchStatus
    rw [hq]
    simp only [Bool.false_eq_true, if_false]
    rw [if_neg hne]

/-- Witness for the amended C7 at the concrete shrunk search state. -/
theorem C7_current_match_clamped_witness :
    (∃ m, currentMatch searchShrunkState = some m ∧
        (searchMatches searchShrunkState)[min searchShrunkState.currentMatchIndex
          ((searchMatches searchShrunkState).length - 1)]? = some m ∧
        min searchShrunkState.currentMatchIndex
          ((searchMatches searchShrunkState).length - 1) <
          (searchMatches searchShrunkState).length) ∧
    ((jsTrim searchShrunkState.searchQuery).isEmpty = false →
      searchStatus searchShrunkState =
        toString (searchShrunkState.currentMatchIndex + 1) ++ " / " ++
          toString (searchMatches searchShrunkState).length) :=
  C7_current_match_clamped searchShrunkState (by decide)

/-! ## Batch-merge machinery -/

theorem flaggedKeys_set_of_same {segs : List Segment} {j : Nat} {b : Segment} (b' : Segment)
    (h : segs[j]? = some b) (hid : b'.id = b.id) (he : b'.isError = b.isError)
    (hd : b'.isDeleted = b.isDeleted) :
    flaggedKeys (segs.set j b') = flaggedKeys segs := by
  have hlen := length_take_of_getElem? h
  have hdc := decomp_of_getElem? h
  set A := segs.take j with hA
  set C := segs.drop (j + 1) with hC
  rw [hdc, set_positioned' _ _ _ _ hlen]
  unfold flaggedKeys
  rw [List.filterMap_append, List.filterMap_append, List.filterMap_cons, List.filterMap_cons]
  have hfb : (if b'.isError || b'.isDeleted then some (b'.id, b'.isError, b'.isDeleted)
        else none) =
      (if b.isError || b.isDeleted then some (b.id, b.isError, b.isDeleted) else none) := by
    rw [hid, he, hd]
  rw [hfb]

theorem flaggedKeys_removeAt_of_unflagged {segs : List Segment} {i : Nat} {x : Segment}
    (h : segs[i]? = some x) (hx : x.isError = false) (hx2 : x.isDeleted = false) :
    flaggedKeys (removeAt segs i) = flaggedKeys segs := by
  have hlen := length_take_of_getElem? h
  have hdc := decomp_of_getElem? h
  set A := segs.take i with hA
  set C := segs.drop (i + 1) with hC
  rw [hdc, removeAt_positioned' _ _ _ hlen]
  unfold flaggedKeys
  rw [List.filterMap_append, List.filterMap_append, List.filterMap_cons, hx, hx2]
  simp

theorem flaggedKeys_bmBody (t : List Char) (d : MergeDir) (i : Nat) (segs : List Segment) :
    flaggedKeys (bmBody t d i segs) = flaggedKeys segs := by
  unfold bmBody
  split
  case h_1 => rfl
  case h_2 seg hseg =>
    split
    case isFalse => rfl
    case isTrue helig =>
      obtain ⟨htxt, hdel, herr⟩ := helig
      cases d with
      | left =>
        dsimp only
        split
        case isFalse => rfl
        case isTrue hpos =>
          split
          case h_2 => rfl
          case h_1 prev hprev =>
            have hset : (segs.set (i - 1)
                { prev with text := prev.text ++ seg.text, endIndex := seg.endIndex })[i]? =
                some seg := by
              rw [List.getElem?_set_ne (by omega)]
              exact hseg
            rw [flaggedKeys_removeAt_of_unflagged hset herr hdel,
              flaggedKeys_set_of_same
                { prev with text := prev.text ++ seg.text, endIndex := seg.endIndex }
                hprev rfl rfl rfl]
      | right =>
        dsimp only
        split
        case isFalse => rfl
        case isTrue hlt =>
          split
          case h_2 => rfl
          case h_1 next hnext =>
            have hset : (segs.set (i + 1)
                { next with text := seg.text ++ next.text, startIndex := seg.startIndex })[i]? =
                some seg := by
              rw [List.getElem?_set_ne (by omega)]
              exact hseg
            rw [flaggedKeys_removeAt_of_unflagged hset herr hdel,
              flaggedKeys_set_of_same
                { next with text := seg.text ++ next.text, startIndex := seg.startIndex }
                hnext rfl rfl rfl]

theorem flaggedKeys_bmLoop (t : List Char) (d : MergeDir) :
    ∀ (i : Nat) (segs : List Segment), flaggedKeys (bmLoop t d i segs) = flaggedKeys segs := by
  intro i
  induction i with
  | zero => intro segs; exact flaggedKeys_bmBody t d 0 segs
  | succ n ih =>
    intro segs
    unfold bmLoop
    rw [ih, flaggedKeys_bmBody]

theorem bmBody_sane (t : List Char) (d : MergeDir) (i : Nat) {segs : List Segment}
    (h : ∀ x ∈ segs, x.text ≠ []) : ∀ x ∈ bmBody t d i segs, x.text ≠ [] := by
  intro x hx
  unfold bmBody at hx
  split at hx
  case h_1 => exact h x hx
  case h_2 seg hseg =>
    split at hx
    case isFalse => exact h x hx
    case isTrue helig =>
      cases d with
      | left =>
        dsimp only at hx
        split at hx
        case isFalse => exact h x hx
        case isTrue =>
          split at hx
          case h_2 => exact h x hx
          case h_1 prev hprev =>
            rcases mem_set (mem_removeAt hx) with hmem | rfl
            · exact h x hmem
            · have : prev.text ≠ [] := h prev (List.getElem?_mem hprev)
              simp [this]
      | right =>
        dsimp only at hx
        split at hx
        case isFalse => exact h x hx
        case isTrue =>
          split at hx
          case h_2 => exact h x hx
          case h_1 next hnext =>
            rcases mem_set (mem_removeAt hx) with hmem | rfl
            · exact h x hmem
            · have : seg.text ≠ [] := h seg (List.getElem?_mem hseg)
              simp [this]

theorem bmBody_survives (t : List Char) (d : MergeDir) (i : Nat) {segs : List Segment}
    (hsane : ∀ x ∈ segs, x.text ≠ []) {s : Segment} (hs : s ∈ segs)
    (hne : ¬(s.text = t ∧ s.isDeleted = false ∧ s.isError = false)) :
    ∃ s' ∈ bmBody t d i segs, s'.id = s.id ∧ s'.isError = s.isError ∧
      s'.isDeleted = s.isDeleted ∧
      ¬(s'.text = t ∧ s'.isDeleted = false ∧ s'.isError = false) := by
  unfold bmBody
  split
  case h_1 => exact ⟨s, hs, rfl, rfl, rfl, hne⟩
  case h_2 seg hseg =>
    split
    case isFalse => exact ⟨s, hs, rfl, rfl, rfl, hne⟩
    case isTrue helig =>
      obtain ⟨htxt, hdel, herr⟩ := helig
      cases d with
      | left =>
        dsimp only
        split
        case isFalse => exact ⟨s, hs, rfl, rfl, rfl, hne⟩
        case isTrue hpos =>
          split
          case h_2 => exact ⟨s, hs, rfl, rfl, rfl, hne⟩
          case h_1 prev hprev =>
            obtain ⟨j, rfl⟩ : ∃ j, i = j + 1 := ⟨i - 1, by omega⟩
            simp only [Nat.add_sub_cancel] at hprev
            have hd := decomp2_of_getElem? hprev hseg
            have hlen := length_take_of_getElem? hprev
            set A := segs.take j with hA
            set C := segs.drop (j + 2) with hC
            set P : Segment :=
              { prev with text := prev.text ++ seg.text, endIndex := seg.endIndex } with hP
            have hres : removeAt (segs.set (j + 1 - 1) P) (j + 1) = A ++ P :: C := by
              simp only [Nat.add_sub_cancel]
              conv_lhs => rw [hd]
              rw [set_positioned' _ _ _ _ hlen, removeAt_positioned_succ' _ _ _ _ hlen]
            rw [hres]
            have hsplit : s ∈ A ∨ s = prev ∨ s = seg ∨ s ∈ C := by
              rw [hd] at hs
              rcases List.mem_append.mp hs with h | h
              · exact .inl h
              · rcases List.mem_cons.mp h with h | h
                · exact .inr (.inl h)
                · rcases List.mem_cons.mp h with h | h
                  · exact .inr (.inr (.inl h))
                  · exact .inr (.inr (.inr h))
            rcases hsplit with hmem | rfl | rfl | hmem
            · exact ⟨s, List.mem_append.mpr (.inl hmem), rfl, rfl, rfl, hne⟩
            · refine ⟨P, List.mem_append.mpr (.inr (List.mem_cons_self _ _)), rfl, rfl, rfl, ?_⟩
              rintro ⟨he1, -, -⟩
              rw [hP] at he1
              dsimp only at he1
              rw [htxt] at he1
              have hlen2 := congrArg List.length he1
              simp only [List.length_append] at hlen2
              have hnil : s.text = [] := List.length_eq_zero.mp (by omega)
              exact hsane s hs hnil
            · exact absurd ⟨htxt, hdel, herr⟩ hne
            · exact ⟨s, List.mem_append.mpr (.inr (List.mem_cons_of_mem _ hmem)),
                rfl, rfl, rfl, hne⟩
      | right =>
        dsimp only
        split
        case isFalse => exact ⟨s, hs, rfl, rfl, rfl, hne⟩
        case isTrue hlt =>
          split
          case h_2 => exact ⟨s, hs, rfl, rfl, rfl, hne⟩
          case h_1 next hnext =>
            have hd := decomp2_of_getElem? hseg hnext
            have hlen := length_take_of_getElem? hseg
            set A := segs.take i with hA
            set C := segs.drop (i + 2) with hC
            set N : Segment :=
              { next with text := seg.text ++ next.text, startIndex := seg.startIndex } with hN
            have hres : removeAt (segs.set (i + 1) N) i = A ++ N :: C := by
              conv_lhs => rw [hd]
              rw [set_positioned_succ' _ _ _ _ _ hlen, removeAt_positioned' _ _ _ hlen]
            rw [hres]
            have hsplit : s ∈ A ∨ s = seg ∨ s = next ∨ s ∈ C := by
              rw [hd] at hs
              rcases List.mem_append.mp hs with h | h
              · exact .inl h
              · rcases List.mem_cons.mp h with h | h
                · exact .inr (.inl h)
                · rcases List.mem_cons.mp h with h | h
                  · exact .inr (.inr (.inl h))
                  · exact .inr (.inr (.inr h))
            rcases hsplit with hmem | rfl | rfl | hmem
            · exact ⟨s, List.mem_append.mpr (.inl hmem), rfl, rfl, rfl, hne⟩
            · exact absurd ⟨htxt, hdel, herr⟩ hne
            · refine ⟨N, List.mem_append.mpr (.inr (List.mem_cons_self _ _)), rfl, rfl, rfl, ?_⟩
              rintro ⟨he1, -, -⟩
              rw [hN] at he1
              dsimp only at he1
              rw [htxt] at he1
              have hlen2 := congrArg List.length he1
              simp only [List.length_append] at hlen2
              have hnil : s.text = [] := List.length_eq_zero.mp (by omega)
              exact hsane s hs hnil
            · exact ⟨s, List.mem_append.mpr (.inr (List.mem_cons_of_mem _ hmem)),
                rfl, rfl, rfl, hne⟩

theorem bmLoop_survives (t : List Char) (d : MergeDir) :
    ∀ (i : Nat) {segs : List Segment}, (∀ x ∈ segs, x.text ≠ []) →
      ∀ {s : Segment}, s ∈ segs → ¬(s.text = t ∧ s.isDeleted = false ∧ s.isError = false) →
      ∃ s' ∈ bmLoop t d i segs, s'.id = s.id ∧ s'.isError = s.isError ∧
        s'.isDeleted = s.isDeleted := by
  intro i
  induction i with
  | zero =>
    intro segs hsane s hs hne
    obtain ⟨s', hmem, h1, h2, h3, _⟩ := bmBody_survives t d 0 hsane hs hne
    exact ⟨s', hmem, h1, h2, h3⟩
  | succ n ih =>
    intro segs hsane s hs hne
    unfold bmLoop
    obtain ⟨s', hmem, h1, h2, h3, hne'⟩ := bmBody_survives t d (n + 1) hsane hs hne
    obtain ⟨s'', hmem2, g1, g2, g3⟩ := ih (bmBody_sane t d (n + 1) hsane) hmem hne'
    exact ⟨s'', hmem2, g1.trans h1, g2.trans h2, g3.trans h3⟩

/-- Counterexample to C10 as stated: on a line `[a(error), a(normal)]` with
target `a` and direction `left`, the normal segment is (correctly) merged
leftwards — into the error-flagged segment, whose text grows from `a` to
`aa` and whose `endIndex` changes, and whose neighbour disappears. So a
flagged segment matching the target is NOT "left unchanged, along with its
neighbours" by the batch call; it is only never merged away itself. -/
theorem C10_batch_merge_counterexample :
    batchErrLines =
      [{ id := 1, originalText := ['a', 'a'],
         segments := [{ id := 1, text := ['a'], isError := true, isDeleted := false,
                        startIndex := 0, endIndex := 1 },
                      { id := 2, text := ['a'], isError := false, isDeleted := false,
                        startIndex := 1, endIndex := 2 }] }] ∧
    batchMerge ['a'] .left batchErrLines =
      [{ id := 1, originalText := ['a', 'a'],
         segments := [{ id := 1, text := ['a', 'a'], isError := true, isDeleted := false,
                        startIndex := 0, endIndex := 2 }] }] := by
  constructor
  · decide
  · decide

/-- C10 as amended: `batchMerge` never merges away a segment whose
`isError` or `isDeleted` is true — the flagged segments survive, in order,
with their ids and both flags intact (first conjunct); more generally, in a
collection whose segments all have non-empty text, every segment that is
not eligible (text differing from the trimmed target, or flagged) survives
with its id and flags (second conjunct). Only eligible segments — exact
text match, both flags false, a neighbour on the requested side — are
removed. A flagged or non-matching segment is however not necessarily left
byte-for-byte unchanged: as the recipient of a neighbour's merge it can
gain that neighbour's text. -/
theorem C10_batch_merge_flagged_preserved (mergeChar : List Char) (dir : MergeDir)
    (lines : List TextLine) :
    (batchMerge mergeChar dir lines).map (fun l => flaggedKeys l.segments) =
      lines.map (fun l => flaggedKeys l.segments) ∧
    (∀ (li : Nat) (l : TextLine), lines[li]? = some l →
      (∀ x ∈ l.segments, x.text ≠ []) →
      ∀ s ∈ l.segments,
        ¬(s.text = jsTrim mergeChar ∧ s.isDeleted = false ∧ s.isError = false) →
        ∃ l', (batchMerge mergeChar dir lines)[li]? = some l' ∧ l'.id = l.id ∧
          ∃ s' ∈ l'.segments, s'.id = s.id ∧ s'.isError = s.isError ∧
            s'.isDeleted = s.isDeleted) := by
  constructor
  · unfold batchMerge
    split
    · rfl
    · rw [List.map_map]
      refine List.map_congr_left (fun l _ => ?_)
      simp only [Function.comp_apply]
      split
      · rfl
      · exact flaggedKeys_bmLoop _ dir _ l.segments
  · intro li l hli hsane s hs hne
    unfold batchMerge
    split
    case isTrue => exact ⟨l, hli, rfl, s, hs, rfl, rfl, rfl⟩
    case isFalse =>
      rw [List.getElem?_map, hli]
      by_cases hempty : l.segments.isEmpty = true
      · rw [List.isEmpty_iff] at hempty
        rw [hempty] at hs
        exact absurd hs (List.not_mem_nil s)
      · set lr := bmLoop (jsTrim mergeChar) dir (l.segments.length - 1) l.segments with hlr
        refine ⟨{ l with segments := lr }, ?_, rfl, ?_⟩
        · simp only [Option.map_some']
          rw [if_neg hempty]
        · exact bmLoop_survives (jsTrim mergeChar) dir (l.segments.length - 1) hsane hs hne

/-- Witness for the amended C10: a flagged, non-matching segment survives a
batch merge with its id and flags. -/
theorem C10_batch_merge_flagged_preserved_witness :
    (batchMerge ['x'] .right batchDemoLines).map (fun l => flaggedKeys l.segments) =
      batchDemoLines.map (fun l => flaggedKeys l.segments) ∧
    ∃ l', (batchMerge ['x'] .right batchDemoLines)[0]? = some l' ∧ l'.id = 1 ∧
      ∃ s' ∈ l'.segments, s'.id = 1 ∧ s'.isError = true ∧ s'.isDeleted = false := by
  have h := C10_batch_merge_flagged_preserved ['x'] .right batchDemoLines
  refine ⟨h.1, ?_⟩
  obtain ⟨l', h1, h2, s', h3, h4, h5, h6⟩ :=
    h.2 0
      { id := 1, originalText := ['y'],
        segments := [{ id := 1, text := ['y'], isError := true, isDeleted := false,
                       startIndex := 0, endIndex := 1 }] }
      (by decide) (by decide)
      { id := 1, text := ['y'], isError := true, isDeleted := false,
        startIndex := 0, endIndex := 1 }
      (by decide) (by decide)
  exact ⟨l', h1, h2, s', h3, h4, h5, h6⟩

end WerTool
